import Mathlib

/-!
Verification of the variable-format subtable codec of `fonttools-rs`
(`src/layout/gsub1.rs` — single substitution, `src/layout/gpos2.rs` — pair
positioning).

Machine integers are embedded as `Nat`/`Int` with explicit reduction modulo
2^16.  `BTreeMap` is embedded as a sorted association list with a canonical
ordered insert.  Byte buffers are `List Nat` (big-endian 16-bit fields).

The binary-emission machinery (the `otspec` crate), the coverage table and the
value record live in this repository but outside the sources under
verification; the definitions for those parts are modelled from the
specification (§3, §4.4, §6) and are marked `Modelled from the spec`.
-/

set_option linter.unusedVariables false

namespace FontTools

/-! ## Definitions -/

/-- Reinterpret an unsigned 16-bit value (a `Nat`, reduced mod 2^16) as a
signed 16-bit value, Rust's `as i16` cast. -/
def toI16 (v : Nat) : Int :=
  if v % 65536 < 32768 then (v % 65536 : Int) else (v % 65536 : Int) - 65536

/-- Reinterpret a signed value as an unsigned 16-bit value, Rust's `as u16`
cast (two's complement, reduction mod 2^16). -/
def toU16 (x : Int) : Nat := (x % 65536).toNat

/-- Canonical signed-16-bit representative of an integer: the unique value in
`[-32768, 32767]` congruent mod 2^16. -/
def wrapI16 (x : Int) : Int := (x + 32768) % 65536 - 32768

/-- Rust `i16::wrapping_add`. -/
def wadd16 (a b : Int) : Int := wrapI16 (a + b)

/-- Rust `i16::wrapping_sub`. -/
def wsub16 (a b : Int) : Int := wrapI16 (a - b)

/-- A signed value is representable in `i16`. -/
def fitsI16 (x : Int) : Prop := -32768 ≤ x ∧ x ≤ 32767

instance (x : Int) : Decidable (fitsI16 x) := by unfold fitsI16; infer_instance

/-- Modelled from the spec (§6): the `otspec` crate's big-endian emission of
an unsigned 16-bit field. -/
def u16Bytes (v : Nat) : List Nat := [v / 256 % 256, v % 256]

/-- Modelled from the spec (§6): big-endian emission of a signed 16-bit
field (two's complement). -/
def i16Bytes (x : Int) : List Nat := u16Bytes (toU16 x)

/-- Modelled from the spec (§6): the read cursor's big-endian 16-bit field
read at position `p` of a byte buffer. -/
def read16 (b : List Nat) (p : Nat) : Option Nat :=
  match b.get? p, b.get? (p + 1) with
  | some x, some y => some ((x % 256) * 256 + y % 256)
  | _, _ => none

/-- Modelled from the spec (§6): the counted-array primitive's element loop —
read `n` consecutive big-endian 16-bit fields starting at position `p`. -/
def readU16List (b : List Nat) (p : Nat) : Nat → Option (List Nat)
  | 0 => some []
  | n + 1 =>
    match read16 b p, readU16List b (p + 2) n with
    | some v, some rest => some (v :: rest)
    | _, _ => none

/-- Ordered insert into a sorted association list: the embedding of
`BTreeMap::insert` (replace on equal key, keep ascending key order). -/
def mapInsert {K V : Type} (cmp : K → K → Ordering) (k : K) (v : V) :
    List (K × V) → List (K × V)
  | [] => [(k, v)]
  | (k', v') :: rest =>
    match cmp k k' with
    | .lt => (k, v) :: (k', v') :: rest
    | .eq => (k, v) :: rest
    | .gt => (k', v') :: mapInsert cmp k v rest

/-- Comparison on `Nat` keys (numeric `Ord` of `u16`). -/
def natCmp (a b : Nat) : Ordering :=
  if a < b then .lt else if b < a then .gt else .eq

/-- Lexicographic comparison on `(u16, u16)` pairs (derived `Ord` of a Rust
tuple, which `BTreeMap<(u16, u16), _>` uses). -/
def pairCmp (a b : Nat × Nat) : Ordering :=
  if a.1 < b.1 then .lt else if b.1 < a.1 then .gt
  else if a.2 < b.2 then .lt else if b.2 < a.2 then .gt else .eq

/-- Strict lexicographic order on glyph pairs. -/
def pairLt (a b : Nat × Nat) : Prop :=
  a.1 < b.1 ∨ (a.1 = b.1 ∧ a.2 < b.2)

instance (a b : Nat × Nat) : Decidable (pairLt a b) := by
  unfold pairLt; infer_instance

/-- Modelled from the spec: the value record (`src/layout/valuerecord.rs` is
not among the verified sources).  A flag-driven sparse record of signed 16-bit
positioning deltas (§3): each field is present (`some`) or absent (`none`). -/
structure ValueRecord where
  xPlacement : Option Int
  yPlacement : Option Int
  xAdvance : Option Int
  yAdvance : Option Int
deriving DecidableEq, Repr

/-- The empty value record. -/
def ValueRecord.empty : ValueRecord := ⟨none, none, none, none⟩

/-- Drop one field when its value is the neutral value zero. -/
def simpField (o : Option Int) : Option Int := if o = some 0 then none else o

/-- Modelled from the spec (§4.4): `simplify` strips fields equal to the
neutral value, producing the canonical minimal form. -/
def ValueRecord.simplify (v : ValueRecord) : ValueRecord :=
  ⟨simpField v.xPlacement, simpField v.yPlacement,
   simpField v.xAdvance, simpField v.yAdvance⟩

/-- Flag bits of the wire value-format field: bit 0 x-placement, bit 1
y-placement, bit 2 x-advance, bit 3 y-advance (§6). -/
def ValueRecord.flags (v : ValueRecord) : Nat :=
  (cond v.xPlacement.isSome 1 0) + (cond v.yPlacement.isSome 2 0) +
  (cond v.xAdvance.isSome 4 0) + (cond v.yAdvance.isSome 8 0)

/-- Modelled from the spec (§4.4): `highest_format`, the union of the minimal
per-record flag requirements over a collection; the empty collection yields
the empty flag set. -/
def highest_format (vs : List ValueRecord) : Nat :=
  vs.foldl (fun acc v => acc ||| v.flags) 0

/-- Wire bytes of one optional field under one flag bit. -/
def optFieldBytes (flag : Bool) (o : Option Int) : List Nat :=
  if flag then u16Bytes (toU16 (o.getD 0)) else []

/-- Modelled from the spec (§6): wire bytes of a value record under an
explicit flag set — one big-endian `i16` per set flag, in bit order. -/
def vrBytes (f : Nat) (v : ValueRecord) : List Nat :=
  optFieldBytes (f.testBit 0) v.xPlacement ++ optFieldBytes (f.testBit 1) v.yPlacement ++
  optFieldBytes (f.testBit 2) v.xAdvance ++ optFieldBytes (f.testBit 3) v.yAdvance

/-- Read one optional field under one flag bit; returns the field and the next
read position. -/
def readOptField (b : List Nat) (p : Nat) (flag : Bool) :
    Option (Option Int × Nat) :=
  if flag then (read16 b p).map (fun v => (some (toI16 v), p + 2))
  else some (none, p)

/-- Modelled from the spec (§6): read a value record under an explicit flag
set; returns the record and the next read position. -/
def readVR (b : List Nat) (p : Nat) (f : Nat) : Option (ValueRecord × Nat) :=
  (readOptField b p (f.testBit 0)).bind fun xp =>
    (readOptField b xp.2 (f.testBit 1)).bind fun yp =>
      (readOptField b yp.2 (f.testBit 2)).bind fun xa =>
        (readOptField b xa.2 (f.testBit 3)).bind fun ya =>
          some (⟨xp.1, yp.1, xa.1, ya.1⟩, ya.2)

/-- The record obtained by reading back a record written under flag set `f`:
flagged fields survive (absent ones come back as explicit zeroes), unflagged
fields are absent. -/
def maskRead (f : Nat) (v : ValueRecord) : ValueRecord :=
  ⟨if f.testBit 0 then some (v.xPlacement.getD 0) else none,
   if f.testBit 1 then some (v.yPlacement.getD 0) else none,
   if f.testBit 2 then some (v.xAdvance.getD 0) else none,
   if f.testBit 3 then some (v.yAdvance.getD 0) else none⟩

/-- An optional signed field fits in `i16` when present. -/
def optFits (o : Option Int) : Prop := ∀ x, o = some x → fitsI16 x

instance optFits.dec : (o : Option Int) → Decidable (optFits o)
  | none => isTrue (by intro x hx; cases hx)
  | some x => decidable_of_iff (fitsI16 x) (by unfold optFits; simp)

/-- Well-formed value record: every present field fits in `i16`. -/
def ValueRecord.wf (v : ValueRecord) : Prop :=
  optFits v.xPlacement ∧ optFits v.yPlacement ∧ optFits v.xAdvance ∧ optFits v.yAdvance

instance (v : ValueRecord) : Decidable v.wf := by
  unfold ValueRecord.wf; infer_instance

/-- Fatal decode outcomes: `eof` — the cursor ran out of bytes
(`DeserializationError`), `badCoverage` — the pointed-to coverage table could
not be read, `badFormat` — the `panic!("Bad ... format")` on an unrecognized
format tag, `unimplementedFormat` — the `unimplemented!()` on pair-positioning
format 2, `overflow` — an overflow-checked integer addition trapped (the
debug-build arithmetic-overflow panic). -/
inductive DecodeError where
  | eof : DecodeError
  | badCoverage : DecodeError
  | badFormat : Nat → DecodeError
  | unimplementedFormat : DecodeError
  | overflow : DecodeError
deriving DecidableEq, Repr

/-- Lift an optional read into the fatal-error monad. -/
def liftO {α : Type} (e : DecodeError) : Option α → Except DecodeError α
  | none => .error e
  | some a => .ok a

instance {ε α : Type} [DecidableEq ε] [DecidableEq α] : DecidableEq (Except ε α)
  | .ok a, .ok b =>
    if h : a = b then isTrue (by rw [h])
    else isFalse (by intro hh; cases hh; exact h rfl)
  | .ok _, .error _ => isFalse (by intro h; cases h)
  | .error _, .ok _ => isFalse (by intro h; cases h)
  | .error e, .error e' =>
    if h : e = e' then isTrue (by rw [h])
    else isFalse (by intro hh; cases hh; exact h rfl)

/-- Overflow-checked `i16 + i16` (Rust's plain `+`, which traps on overflow in
a debug build and is what `gsub1.rs` line 80 uses — unlike the `wrapping_add`
used by `best_format`). -/
def checkedAddI16 (a b : Int) : Except DecodeError Int :=
  if fitsI16 (a + b) then .ok (a + b) else .error .overflow

/-- Modelled from the spec (§4.1, glossary): a coverage table is an ascending,
duplicate-free glyph list; its wire form (`src/layout/coverage.rs` is not
among the verified sources) is the glyph-list form
`[1:2][glyphCount:2][glyph:2]×count` seen in every fixture of §8. -/
def coverageBytes (glyphs : List Nat) : List Nat :=
  u16Bytes 1 ++ u16Bytes glyphs.length ++ (glyphs.map u16Bytes).flatten

/-- Modelled from the spec: parse the glyph-list form of a coverage table at
position `p`. -/
def parseCoverage (b : List Nat) (p : Nat) : Option (List Nat) :=
  (read16 b p).bind fun fmt =>
    if fmt = 1 then (read16 b (p + 2)).bind fun n => readU16List b (p + 4) n
    else none

/-- Wire variant `SingleSubstFormat1`: the coverage field holds the pointed-to
coverage table's glyph list, `deltaGlyphID` is a signed 16-bit delta. -/
structure SingleSubstFormat1 where
  coverage : List Nat
  deltaGlyphID : Int
deriving DecidableEq, Repr

/-- Wire variant `SingleSubstFormat2`: explicit substitute list, ordered by
coverage index. -/
structure SingleSubstFormat2 where
  coverage : List Nat
  substituteGlyphIDs : List Nat
deriving DecidableEq, Repr

/-- The discriminated union `SingleSubstInternal`. -/
inductive SingleSubstInternal where
  | format1 : SingleSubstFormat1 → SingleSubstInternal
  | format2 : SingleSubstFormat2 → SingleSubstInternal
deriving DecidableEq, Repr

/-- The canonical substitution mapping (`SingleSubst.mapping`,
a `BTreeMap<u16, u16>`): a sorted association list. -/
abbrev SubstMap : Type := List (Nat × Nat)

/-- `SingleSubst::best_format`: delta from the first entry via `i16`
wrapping subtraction, format 1 iff every later entry matches the delta via
`i16` wrapping addition, format 2 otherwise and for the empty mapping. -/
def best_format (mapping : SubstMap) : Nat × Int :=
  match mapping with
  | [] => (2, 0)
  | (first_left, first_right) :: rest =>
    let delta := wsub16 (toI16 first_right) (toI16 first_left)
    let format :=
      if rest.all (fun e => wadd16 (toI16 e.1) delta = toI16 e.2) then 1 else 2
    (format, delta)

/-- `From<&SingleSubst> for SingleSubstInternal`: coverage from the mapping
keys (ascending), then format selection. -/
def singleSubstInternalFrom (mapping : SubstMap) : SingleSubstInternal :=
  let coverage := mapping.map (·.1)
  let fd := best_format mapping
  if fd.1 = 1 then .format1 ⟨coverage, fd.2⟩
  else .format2 ⟨coverage, mapping.map (·.2)⟩

/-- Modelled from the spec (§6): binary emission of a `SingleSubstInternal`.
The coverage table is emitted right after the fixed-size header, and the
stored offset is table-relative (format 1 header is 6 bytes; format 2 header
is 6 bytes plus the counted substitute array). -/
def serializeSingleSubstInternal : SingleSubstInternal → List Nat
  | .format1 f =>
    u16Bytes 1 ++ u16Bytes 6 ++ i16Bytes f.deltaGlyphID ++ coverageBytes f.coverage
  | .format2 f =>
    u16Bytes 2 ++ u16Bytes (6 + 2 * f.substituteGlyphIDs.length) ++
    u16Bytes f.substituteGlyphIDs.length ++
    (f.substituteGlyphIDs.map u16Bytes).flatten ++ coverageBytes f.coverage

/-- `Serialize for SingleSubst::to_bytes`: convert to the internal variant,
then emit. -/
def singleSubstToBytes (mapping : SubstMap) : List Nat :=
  serializeSingleSubstInternal (singleSubstInternalFrom mapping)

/-- Format-1 reconstruction loop of `SingleSubst::from_bytes`: for every
covered glyph insert `gid ↦ (gid as i16 + delta) as u16`, the addition being
the overflow-checked `+`. -/
def singleSubstF1Mapping (glyphs : List Nat) (delta : Int) :
    Except DecodeError SubstMap :=
  glyphs.foldlM
    (fun m gid => do
      let s ← checkedAddI16 (toI16 gid) delta
      pure (mapInsert natCmp gid (toU16 s) m))
    ([] : SubstMap)

/-- Format-2 reconstruction loop of `SingleSubst::from_bytes`: zip the
coverage glyphs with the substitute array positionally and insert each pair. -/
def singleSubstF2Mapping (glyphs subs : List Nat) : SubstMap :=
  (glyphs.zip subs).foldl (fun m e => mapInsert natCmp e.1 e.2 m) ([] : SubstMap)

/-- `Deserialize for SingleSubst::from_bytes`: peek the 2-byte format tag,
dispatch on `1`/`2`, panic on anything else. -/
def decodeSingleSubst (b : List Nat) : Except DecodeError SubstMap :=
  match read16 b 0 with
  | none => .error .eof
  | some 1 => do
    let covOff ← liftO .eof (read16 b 2)
    let delta16 ← liftO .eof (read16 b 4)
    let glyphs ← liftO .badCoverage (parseCoverage b covOff)
    singleSubstF1Mapping glyphs (toI16 delta16)
  | some 2 => do
    let covOff ← liftO .eof (read16 b 2)
    let count ← liftO .eof (read16 b 4)
    let subs ← liftO .eof (readU16List b 6 count)
    let glyphs ← liftO .badCoverage (parseCoverage b covOff)
    pure (singleSubstF2Mapping glyphs subs)
  | some t => .error (.badFormat t)

/-- Wire structure `PairValueRecord`. -/
structure PairValueRecord where
  secondGlyph : Nat
  valueRecord1 : ValueRecord
  valueRecord2 : ValueRecord
deriving DecidableEq, Repr

/-- Wire variant `PairPosFormat1`: the offset fields hold the pointed-to
values (the coverage table's glyph list and each pair set's record list). -/
structure PairPosFormat1 where
  coverage : List Nat
  valueFormat1 : Nat
  valueFormat2 : Nat
  pairSets : List (List PairValueRecord)
deriving DecidableEq, Repr

/-- The canonical pair-positioning mapping (`PairPositioningMap`,
a `BTreeMap<(u16, u16), (ValueRecord, ValueRecord)>`): a sorted association
list under the lexicographic pair order. -/
abbrev PairMap : Type := List ((Nat × Nat) × (ValueRecord × ValueRecord))

/-- The two-level grouping `SplitPairPositioningMap`. -/
abbrev SplitPairMap : Type :=
  List (Nat × List (Nat × (ValueRecord × ValueRecord)))

/-- One step of `split_into_two_layer`'s loop body:
`out_hash.entry(l).or_insert_with(BTreeMap::new).insert(r, vs)`. -/
def nestedInsert (l r : Nat) (v : ValueRecord × ValueRecord) :
    SplitPairMap → SplitPairMap
  | [] => [(l, [(r, v)])]
  | (l', inner) :: rest =>
    match natCmp l l' with
    | .lt => (l, [(r, v)]) :: (l', inner) :: rest
    | .eq => (l', mapInsert natCmp r v inner) :: rest
    | .gt => (l', inner) :: nestedInsert l r v rest

/-- `split_into_two_layer`: group the flat pair mapping by left glyph. -/
def split_into_two_layer (in_hash : PairMap) : SplitPairMap :=
  in_hash.foldl (fun out e => nestedInsert e.1.1 e.1.2 e.2 out) []

/-- `best_format` of `gpos2.rs`: constantly 1. -/
def pairPosBestFormat (m : PairMap) : Nat := 1

/-- Simplify both value records of every entry (the loop over
`mapping.iter_mut()` in `From<&PairPos> for PairPosInternal`, applied to a
clone of the caller's mapping). -/
def simplifyPairMap (m : PairMap) : PairMap :=
  m.map (fun e => (e.1, (e.2.1.simplify, e.2.2.simplify)))

/-- `From<&PairPos> for PairPosInternal`: simplify a clone of the mapping,
pick the format, group, derive coverage and the two shared value formats,
and build the format-1 wire variant; the format-2 branch is
`unimplemented!()` (dead, since `best_format` is constantly 1). -/
def pairPosInternalFrom (m : PairMap) : Except DecodeError PairPosFormat1 :=
  let mapping := simplifyPairMap m
  let fmt := pairPosBestFormat mapping
  let split_mapping := split_into_two_layer mapping
  let coverage := split_mapping.map (·.1)
  let all_pair_vrs := (split_mapping.map (fun x => x.2.map (·.2))).flatten
  let value_format_1 := highest_format (all_pair_vrs.map (·.1))
  let value_format_2 := highest_format (all_pair_vrs.map (·.2))
  if fmt = 1 then
    .ok
      { coverage := coverage
        valueFormat1 := value_format_1
        valueFormat2 := value_format_2
        pairSets :=
          split_mapping.map (fun x => x.2.map (fun rv => ⟨rv.1, rv.2.1, rv.2.2⟩)) }
  else .error .unimplementedFormat

/-- The format-1 wire variant produced by encoding (the `From` conversion
never takes its dead format-2 branch). -/
def pairPosFormat1Of (m : PairMap) : PairPosFormat1 :=
  match pairPosInternalFrom m with
  | .ok f => f
  | .error _ => ⟨[], 0, 0, []⟩

/-- Modelled from the spec (§6): wire bytes of one pair value record,
`[secondGlyph:2][valueRecord1][valueRecord2]`. -/
def pvrBytes (vf1 vf2 : Nat) (r : PairValueRecord) : List Nat :=
  u16Bytes r.secondGlyph ++ vrBytes vf1 r.valueRecord1 ++ vrBytes vf2 r.valueRecord2

/-- Modelled from the spec (§6): wire bytes of one pair set,
`[pairValueCount:2]([secondGlyph:2][valueRecord1][valueRecord2])×count`. -/
def pairSetBytes (vf1 vf2 : Nat) (ps : List PairValueRecord) : List Nat :=
  u16Bytes ps.length ++ (ps.map (pvrBytes vf1 vf2)).flatten

/-- Table-relative offsets of consecutively emitted children, the first one
placed at `start`. -/
def offsetsFrom (start : Nat) : List (List Nat) → List Nat
  | [] => []
  | s :: rest => start :: offsetsFrom (start + s.length) rest

/-- Modelled from the spec (§6, §9): binary emission of a `PairPosFormat1` —
fixed header `[1:2][coverageOffset:2][valueFormat1:2][valueFormat2:2]
[pairSetCount:2][pairSetOffset:2]×count`, then the coverage table, then the
pair sets, children emitted after the parent in field order with
table-relative offsets. -/
def serializePairPos (f : PairPosFormat1) : List Nat :=
  let n := f.pairSets.length
  let headerLen := 10 + 2 * n
  let covB := coverageBytes f.coverage
  let setsB := f.pairSets.map (pairSetBytes f.valueFormat1 f.valueFormat2)
  let offsets := offsetsFrom (headerLen + covB.length) setsB
  u16Bytes 1 ++ u16Bytes headerLen ++ u16Bytes f.valueFormat1 ++
  u16Bytes f.valueFormat2 ++ u16Bytes n ++ (offsets.map u16Bytes).flatten ++
  covB ++ setsB.flatten

/-- `Serialize for PairPos::to_bytes`: convert via the `From` impl, then
emit. -/
def pairPosToBytes (m : PairMap) : Except DecodeError (List Nat) :=
  match pairPosInternalFrom m with
  | .ok f => .ok (serializePairPos f)
  | .error e => .error e

/-- Inner decode loop of `PairPos::from_bytes` format 1: read
`pair_vr_count` pair value records at position `p`, simplify both value
records of each, and insert `((left, right), (vr1, vr2))`. -/
def parsePairRecords (b : List Nat) (vf1 vf2 left : Nat) :
    Nat → Nat → PairMap → Option (PairMap × Nat)
  | 0, p, m => some (m, p)
  | cnt + 1, p, m =>
    (read16 b p).bind fun right =>
      (readVR b (p + 2) vf1).bind fun vr1 =>
        (readVR b vr1.2 vf2).bind fun vr2 =>
          parsePairRecords b vf1 vf2 left cnt vr2.2
            (mapInsert pairCmp (left, right) (vr1.1.simplify, vr2.1.simplify) m)

/-- Decode one pointed-to pair set: relocate to `offset` (table base is the
start of the subtable), read the count, then the records. -/
def parsePairSet (b : List Nat) (vf1 vf2 left offset : Nat) (m : PairMap) :
    Option PairMap :=
  (read16 b offset).bind fun cnt =>
    (parsePairRecords b vf1 vf2 left cnt (offset + 2) m).map (·.1)

/-- Format-1 outer loop of `PairPos::from_bytes`: zip the coverage glyphs
with the pair-set offset array and decode each pointed-to pair set. -/
def parsePairSets (b : List Nat) (vf1 vf2 : Nat)
    (pairs : List (Nat × Nat)) (m : PairMap) : Option PairMap :=
  match pairs with
  | [] => some m
  | (left, off) :: rest =>
    (parsePairSet b vf1 vf2 left off m).bind fun m' =>
      parsePairSets b vf1 vf2 rest m'

/-- `Deserialize for PairPos::from_bytes`: read the format tag, the coverage
offset (followed eagerly), the two value formats; dispatch on the tag —
format 1 decodes, format 2 is `unimplemented!()`, anything else panics. -/
def decodePairPos (b : List Nat) : Except DecodeError PairMap := do
  let format ← liftO .eof (read16 b 0)
  let covOff ← liftO .eof (read16 b 2)
  let vf1 ← liftO .eof (read16 b 4)
  let vf2 ← liftO .eof (read16 b 6)
  let glyphs ← liftO .badCoverage (parseCoverage b covOff)
  match format with
  | 1 => do
    let pairSetCount ← liftO .eof (read16 b 8)
    let offsets ← liftO .eof (readU16List b 10 pairSetCount)
    liftO .eof (parsePairSets b vf1 vf2 (glyphs.zip offsets) [])
  | 2 => .error .unimplementedFormat
  | t => .error (.badFormat t)

/-- State-passing embedding of `Serialize for PairPos::to_bytes` on a
`&self` receiver: the returned second component is the caller's mapping after
the call.  The `From` conversion works on `val.mapping.clone()`
(`gpos2.rs` line 149), so the post-call mapping is the untouched input. -/
def pairPosToBytesFull (m : PairMap) :
    Except DecodeError (List Nat) × PairMap :=
  (pairPosToBytes m, m)

/-- Accumulated insertions performed while decoding one pair set for left
glyph `left`. -/
def pvrFold (vf1 vf2 left : Nat) (m : PairMap) (ps : List PairValueRecord) :
    PairMap :=
  ps.foldl
    (fun m' r =>
      mapInsert pairCmp (left, r.secondGlyph)
        ((maskRead vf1 r.valueRecord1).simplify,
         (maskRead vf2 r.valueRecord2).simplify) m')
    m

/-- Well-formed pair value record: glyph bound and `i16`-ranged records. -/
def PairValueRecord.wf (r : PairValueRecord) : Prop :=
  r.secondGlyph < 65536 ∧ r.valueRecord1.wf ∧ r.valueRecord2.wf

instance (r : PairValueRecord) : Decidable r.wf := by
  unfold PairValueRecord.wf; infer_instance

/-- The mapping reconstructed by the format-1 decode loop from a structurally
given wire variant: coverage zipped against the pair sets, every decoded
record passing through the shared-flag wire image and `simplify`. -/
def pairPosSemantics (f : PairPosFormat1) : PairMap :=
  (f.coverage.zip f.pairSets).foldl
    (fun m gp => pvrFold f.valueFormat1 f.valueFormat2 gp.1 m gp.2) []

/-- Well-formed format-1 wire variant: 16-bit glyphs and value formats,
16-bit pair-set counts, `i16`-ranged records, and a total serialized size
small enough for every stored offset to fit in 16 bits. -/
def PairPosFormat1.wf (f : PairPosFormat1) : Prop :=
  (∀ g ∈ f.coverage, g < 65536) ∧
  f.valueFormat1 < 65536 ∧ f.valueFormat2 < 65536 ∧
  (∀ ps ∈ f.pairSets, ps.length < 65536 ∧ ∀ r ∈ ps, r.wf) ∧
  (serializePairPos f).length < 65536

instance (f : PairPosFormat1) : Decidable f.wf := by
  unfold PairPosFormat1.wf; infer_instance

/-- Pair-set byte images of a wire variant's pair sets. -/
def ppSetsB (vf1 vf2 : Nat) (sets : List (List PairValueRecord)) :
    List (List Nat) :=
  sets.map (pairSetBytes vf1 vf2)

/-- Table-relative offsets of the emitted pair sets (children follow the
header and the coverage table). -/
def ppOffs (cov : List Nat) (vf1 vf2 : Nat)
    (sets : List (List PairValueRecord)) : List Nat :=
  offsetsFrom (10 + 2 * sets.length + (coverageBytes cov).length)
    (ppSetsB vf1 vf2 sets)

/-- Fixed-position prefix of a serialized format-1 subtable: everything up to
and including the coverage table. -/
def ppPre (cov : List Nat) (vf1 vf2 : Nat)
    (sets : List (List PairValueRecord)) : List Nat :=
  u16Bytes 1 ++ (u16Bytes (10 + 2 * sets.length) ++ (u16Bytes vf1 ++
    (u16Bytes vf2 ++ (u16Bytes sets.length ++
      (((ppOffs cov vf1 vf2 sets).map u16Bytes).flatten ++ coverageBytes cov)))))

/-- Flatten a grouped two-level mapping back into flat entries, preserving
order. -/
def flattenSplit (s : SplitPairMap) : PairMap :=
  (s.map (fun e => e.2.map (fun rv => ((e.1, rv.1), rv.2)))).flatten

/-- Well-formed grouping: strictly ascending outer keys, and nonempty inner
maps with strictly ascending keys. -/
def SplitWF (s : SplitPairMap) : Prop :=
  (s.map (·.1)).Pairwise (· < ·) ∧
  ∀ e ∈ s, e.2 ≠ [] ∧ (e.2.map (·.1)).Pairwise (· < ·)

/-- The three-pair kerning fixture mapping of §8. -/
def kernFixture : PairMap :=
  [((0, 289), (⟨none, none, some (-90), none⟩, ValueRecord.empty)),
   ((0, 332), (⟨none, none, some (-150), none⟩, ValueRecord.empty)),
   ((332, 833), (⟨none, none, some 100, none⟩, ValueRecord.empty))]

/-! ## Theorems -/

theorem toU16_toI16 {v : Nat} (h : v < 65536) : toU16 (toI16 v) = v := by
  unfold toU16 toI16; split <;> omega

theorem toI16_toU16 {x : Int} (h : fitsI16 x) : toI16 (toU16 x) = x := by
  unfold toI16 toU16 fitsI16 at *; split <;> omega

theorem toI16_lt (v : Nat) : toI16 v < 32768 := by
  unfold toI16; split <;> omega

theorem toI16_ge (v : Nat) : -32768 ≤ toI16 v := by
  unfold toI16; split <;> omega

theorem fitsI16_toI16 (v : Nat) : fitsI16 (toI16 v) :=
  ⟨toI16_ge v, by have := toI16_lt v; omega⟩

theorem toU16_lt (x : Int) : toU16 x < 65536 := by
  unfold toU16; omega

theorem u16Bytes_length (v : Nat) : (u16Bytes v).length = 2 := rfl

theorem read16_shift (pre post : List Nat) (i : Nat) :
    read16 (pre ++ post) (pre.length + i) = read16 post i := by
  unfold read16
  rw [List.get?_eq_getElem?, List.get?_eq_getElem?, List.get?_eq_getElem?,
      List.get?_eq_getElem?,
      show pre.length + i + 1 = pre.length + (i + 1) by omega,
      List.getElem?_append_right (by omega), List.getElem?_append_right (by omega)]
  simp

theorem read16_u16Bytes (v : Nat) (rest : List Nat) :
    read16 (u16Bytes v ++ rest) 0 = some (v % 65536) := by
  unfold read16 u16Bytes
  simp only [List.cons_append, List.get?_eq_getElem?]
  simp only [List.getElem?_cons_zero, List.getElem?_cons_succ]
  congr 1
  omega

theorem readU16List_shift_apply (pre post : List Nat) (i n : Nat) :
    readU16List (pre ++ post) (pre.length + i) n = readU16List post i n := by
  induction n generalizing i with
  | zero => rfl
  | succ n ih =>
    unfold readU16List
    rw [read16_shift, show pre.length + i + 2 = pre.length + (i + 2) by omega, ih]

theorem readU16List_shift (pre post : List Nat) (i : Nat) :
    readU16List (pre ++ post) (pre.length + i) = readU16List post i :=
  funext (readU16List_shift_apply pre post i)

theorem readU16List_u16Bytes_shift (v : Nat) (post : List Nat) (n : Nat) :
    readU16List (u16Bytes v ++ post) 2 n = readU16List post 0 n := by
  have := readU16List_shift_apply (u16Bytes v) post 0 n
  simpa using this

theorem readU16List_exact (l : List Nat) (rest : List Nat)
    (h : ∀ x ∈ l, x < 65536) :
    readU16List ((l.map u16Bytes).flatten ++ rest) 0 l.length = some l := by
  induction l generalizing rest with
  | nil => rfl
  | cons x xs ih =>
    have hx : x < 65536 := h x (by simp)
    simp only [List.map_cons, List.flatten_cons, List.append_assoc, List.length_cons]
    unfold readU16List
    rw [read16_u16Bytes, Nat.mod_eq_of_lt hx]
    simp only [Nat.zero_add]
    rw [readU16List_u16Bytes_shift, ih rest (fun y hy => h y (by simp [hy]))]

theorem pairLt_trans {a b c : Nat × Nat} (h1 : pairLt a b) (h2 : pairLt b c) :
    pairLt a c := by
  unfold pairLt at *; omega

theorem natCmp_gt_of {a b : Nat} (h : b < a) : natCmp a b = .gt := by
  unfold natCmp
  rw [if_neg (by omega), if_pos h]

theorem pairCmp_gt_of {a b : Nat × Nat} (h : pairLt b a) : pairCmp a b = .gt := by
  unfold pairCmp pairLt at *
  rcases h with h | ⟨h1, h2⟩
  · rw [if_neg (by omega), if_pos h]
  · rw [if_neg (by omega), if_neg (by omega), if_neg (by omega), if_pos h2]

/-- Appending behaviour of ordered insert when the new key is strictly larger
than every key already present. -/
theorem mapInsert_append_nat {V : Type} (m : List (Nat × V)) (k : Nat) (v : V)
    (h : ∀ e ∈ m, e.1 < k) : mapInsert natCmp k v m = m ++ [(k, v)] := by
  induction m with
  | nil => rfl
  | cons e rest ih =>
    unfold mapInsert
    rw [natCmp_gt_of (h e (by simp))]
    simp only [List.cons_append, List.cons.injEq, true_and]
    exact ih (fun e' he' => h e' (by simp [he']))

theorem mapInsert_append_pair {V : Type} (m : List ((Nat × Nat) × V))
    (k : Nat × Nat) (v : V) (h : ∀ e ∈ m, pairLt e.1 k) :
    mapInsert pairCmp k v m = m ++ [(k, v)] := by
  induction m with
  | nil => rfl
  | cons e rest ih =>
    unfold mapInsert
    rw [pairCmp_gt_of (h e (by simp))]
    simp only [List.cons_append, List.cons.injEq, true_and]
    exact ih (fun e' he' => h e' (by simp [he']))

/-- Folding ordered inserts of an ascending-keyed entry list onto a map whose
keys all precede it reproduces the concatenation. -/
theorem foldl_mapInsert_sorted_nat {V : Type} (L m : List (Nat × V))
    (h : ((m ++ L).map (·.1)).Pairwise (· < ·)) :
    L.foldl (fun acc e => mapInsert natCmp e.1 e.2 acc) m = m ++ L := by
  induction L generalizing m with
  | nil => simp
  | cons e rest ih =>
    have hm : ∀ x ∈ m, x.1 < e.1 := by
      intro x hx
      rw [List.map_append, List.pairwise_append] at h
      exact h.2.2 x.1 (List.mem_map_of_mem _ hx) e.1 (by simp)
    simp only [List.foldl_cons]
    rw [mapInsert_append_nat m e.1 e.2 hm]
    have := ih (m ++ [e]) (by simpa using h)
    simpa using this

theorem foldl_mapInsert_sorted_pair {V : Type} (L m : List ((Nat × Nat) × V))
    (h : ((m ++ L).map (·.1)).Pairwise pairLt) :
    L.foldl (fun acc e => mapInsert pairCmp e.1 e.2 acc) m = m ++ L := by
  induction L generalizing m with
  | nil => simp
  | cons e rest ih =>
    have hm : ∀ x ∈ m, pairLt x.1 e.1 := by
      intro x hx
      rw [List.map_append, List.pairwise_append] at h
      exact h.2.2 x.1 (List.mem_map_of_mem _ hx) e.1 (by simp)
    simp only [List.foldl_cons]
    rw [mapInsert_append_pair m e.1 e.2 hm]
    have := ih (m ++ [e]) (by simpa using h)
    simpa using this

theorem obind_some {α β : Type} (a : α) (f : α → Option β) :
    (some a).bind f = f a := rfl

theorem obind_none {α β : Type} (f : α → Option β) :
    (none : Option α).bind f = none := rfl

theorem read16_peel (pre post : List Nat) (p : Nat) (h : pre.length ≤ p) :
    read16 (pre ++ post) p = read16 post (p - pre.length) := by
  have := read16_shift pre post (p - pre.length)
  rw [show pre.length + (p - pre.length) = p by omega] at this
  exact this

theorem readU16List_peel (pre post : List Nat) (p : Nat) (h : pre.length ≤ p) :
    readU16List (pre ++ post) p = readU16List post (p - pre.length) := by
  have := readU16List_shift pre post (p - pre.length)
  rw [show pre.length + (p - pre.length) = p by omega] at this
  exact this

theorem parseCoverage_shift (pre post : List Nat) (i : Nat) :
    parseCoverage (pre ++ post) (pre.length + i) = parseCoverage post i := by
  unfold parseCoverage
  rw [read16_shift, show pre.length + i + 2 = pre.length + (i + 2) by omega,
      read16_shift, show pre.length + i + 4 = pre.length + (i + 4) by omega,
      readU16List_shift]

theorem parseCoverage_peel (pre post : List Nat) (p : Nat) (h : pre.length ≤ p) :
    parseCoverage (pre ++ post) p = parseCoverage post (p - pre.length) := by
  have := parseCoverage_shift pre post (p - pre.length)
  rw [show pre.length + (p - pre.length) = p by omega] at this
  exact this

theorem parseCoverage_exact (glyphs rest : List Nat)
    (hg : ∀ g ∈ glyphs, g < 65536) (hn : glyphs.length < 65536) :
    parseCoverage (coverageBytes glyphs ++ rest) 0 = some glyphs := by
  have hB : coverageBytes glyphs ++ rest
      = u16Bytes 1 ++
        (u16Bytes glyphs.length ++ ((glyphs.map u16Bytes).flatten ++ rest)) := by
    simp [coverageBytes]
  rw [hB]
  have h0 : read16 (u16Bytes 1 ++
      (u16Bytes glyphs.length ++ ((glyphs.map u16Bytes).flatten ++ rest))) 0
      = some 1 := by
    rw [read16_u16Bytes]
  have h2 : read16 (u16Bytes 1 ++
      (u16Bytes glyphs.length ++ ((glyphs.map u16Bytes).flatten ++ rest))) 2
      = some glyphs.length := by
    rw [read16_peel (u16Bytes 1) _ 2 (by simp [u16Bytes])]
    simp only [u16Bytes_length, Nat.sub_self]
    rw [read16_u16Bytes, Nat.mod_eq_of_lt hn]
  have h4 : readU16List (u16Bytes 1 ++
      (u16Bytes glyphs.length ++ ((glyphs.map u16Bytes).flatten ++ rest))) 4
      glyphs.length = some glyphs := by
    rw [readU16List_peel (u16Bytes 1) _ 4 (by simp [u16Bytes])]
    simp only [u16Bytes_length]
    norm_num
    rw [readU16List_peel (u16Bytes glyphs.length) _ 2 (by simp [u16Bytes])]
    simp only [u16Bytes_length, Nat.sub_self]
    exact readU16List_exact glyphs rest hg
  unfold parseCoverage
  rw [show (0 : Nat) + 2 = 2 from rfl, show (0 : Nat) + 4 = 4 from rfl,
      h0, obind_some, if_pos rfl, h2, obind_some, h4]

theorem fitsI16_wrapI16 (x : Int) : fitsI16 (wrapI16 x) := by
  unfold fitsI16 wrapI16; omega

theorem wsub16_toU16 {k0 v0 : Nat} (hk : k0 < 65536) (hv : v0 < 65536) :
    toU16 (wsub16 (toI16 v0) (toI16 k0)) = (v0 + 65536 - k0) % 65536 := by
  unfold toU16 wsub16 wrapI16 toI16
  split <;> split <;> omega

theorem wadd16_eq_iff {k v : Nat} {d : Int} (hk : k < 65536) (hv : v < 65536)
    (hd : fitsI16 d) :
    wadd16 (toI16 k) d = toI16 v ↔ (k + toU16 d) % 65536 = v := by
  unfold wadd16 wrapI16 toI16 toU16 fitsI16 at *
  split <;> split <;> omega

theorem best_format_fits (m : SubstMap) : fitsI16 (best_format m).2 := by
  unfold best_format
  match m with
  | [] => exact ⟨by norm_num, by norm_num⟩
  | (k0, v0) :: rest => exact fitsI16_wrapI16 _

/-- C2.  Single-substitution format selection: the empty mapping takes
format 2; a non-empty mapping's delta is `output(firstKey) − firstKey` with
16-bit wraparound subtraction, format 1 with that delta is chosen iff every
entry satisfies `output = (key + delta) mod 2^16`, and otherwise format 2 is
chosen with the outputs in ascending-key order and coverage equal to the
ascending key list. -/
theorem single_subst_format_selection (k0 v0 : Nat) (rest : List (Nat × Nat))
    (hwf : ∀ e ∈ (k0, v0) :: rest, e.1 < 65536 ∧ e.2 < 65536) :
    singleSubstInternalFrom [] = .format2 ⟨[], []⟩
    ∧ toU16 (best_format ((k0, v0) :: rest)).2 = (v0 + 65536 - k0) % 65536
    ∧ ((∀ e ∈ (k0, v0) :: rest,
          e.2 = (e.1 + toU16 (best_format ((k0, v0) :: rest)).2) % 65536) →
        singleSubstInternalFrom ((k0, v0) :: rest) =
          .format1 ⟨((k0, v0) :: rest).map (·.1), (best_format ((k0, v0) :: rest)).2⟩)
    ∧ (¬ (∀ e ∈ (k0, v0) :: rest,
          e.2 = (e.1 + toU16 (best_format ((k0, v0) :: rest)).2) % 65536) →
        singleSubstInternalFrom ((k0, v0) :: rest) =
          .format2 ⟨((k0, v0) :: rest).map (·.1), ((k0, v0) :: rest).map (·.2)⟩) := by
  have hk0 : k0 < 65536 := (hwf (k0, v0) (by simp)).1
  have hv0 : v0 < 65536 := (hwf (k0, v0) (by simp)).2
  have hdelta : (best_format ((k0, v0) :: rest)).2
      = wsub16 (toI16 v0) (toI16 k0) := rfl
  have hfits : fitsI16 (best_format ((k0, v0) :: rest)).2 :=
    best_format_fits _
  have hdu : toU16 (best_format ((k0, v0) :: rest)).2
      = (v0 + 65536 - k0) % 65536 := by
    rw [hdelta, wsub16_toU16 hk0 hv0]
  have hhead : v0 = (k0 + toU16 (best_format ((k0, v0) :: rest)).2) % 65536 := by
    rw [hdu]; omega
  have hcond : (rest.all
        (fun e => wadd16 (toI16 e.1) (wsub16 (toI16 v0) (toI16 k0)) = toI16 e.2))
      = true
      ↔ ∀ e ∈ (k0, v0) :: rest,
          e.2 = (e.1 + toU16 (best_format ((k0, v0) :: rest)).2) % 65536 := by
    rw [List.all_eq_true]
    constructor
    · intro h e he
      rcases List.mem_cons.mp he with h1 | h2
      · rw [h1]; exact hhead
      · have hk : e.1 < 65536 := (hwf e he).1
        have hv : e.2 < 65536 := (hwf e he).2
        have := h e h2
        rw [decide_eq_true_iff] at this
        rw [← hdelta] at this
        exact ((wadd16_eq_iff hk hv hfits).mp this).symm
    · intro h e he
      have hk : e.1 < 65536 := (hwf e (by simp [he])).1
      have hv : e.2 < 65536 := (hwf e (by simp [he])).2
      rw [decide_eq_true_iff, ← hdelta]
      exact (wadd16_eq_iff hk hv hfits).mpr (h e (by simp [he])).symm
  refine ⟨rfl, hdu, ?_, ?_⟩
  · intro h
    have hb := hcond.mpr h
    simp only [singleSubstInternalFrom, best_format]
    rw [hb]
    rfl
  · intro h
    have hb : (rest.all
        (fun e => wadd16 (toI16 e.1) (wsub16 (toI16 v0) (toI16 k0)) = toI16 e.2))
        = false := by
      cases hball : (rest.all
          (fun e => wadd16 (toI16 e.1) (wsub16 (toI16 v0) (toI16 k0)) = toI16 e.2)) with
      | false => rfl
      | true => exact absurd (hcond.mp hball) h
    simp only [singleSubstInternalFrom, best_format]
    rw [hb]
    rfl

/-- C2 witness: the format-selection theorem at the two
fixture mappings of §8, one taking format 1 and one format 2. -/
theorem single_subst_format_selection_witness :
    (∀ e ∈ ([(66, 67), (68, 69)] : List (Nat × Nat)), e.1 < 65536 ∧ e.2 < 65536)
    ∧ ((∀ e ∈ ([(66, 67), (68, 69)] : List (Nat × Nat)),
          e.2 = (e.1 + toU16 (best_format [(66, 67), (68, 69)]).2) % 65536) →
        singleSubstInternalFrom [(66, 67), (68, 69)] =
          .format1 ⟨[66, 68], (best_format [(66, 67), (68, 69)]).2⟩) :=
  ⟨by decide, by
    have h := single_subst_format_selection 66 67 [(68, 69)] (by decide)
    exact h.2.2.1⟩

theorem ebind_ok {α β : Type} (a : α) (f : α → Except DecodeError β) :
    (Except.ok a >>= f : Except DecodeError β) = f a := rfl

theorem ebind_error {α β : Type} (e : DecodeError) (f : α → Except DecodeError β) :
    (Except.error e >>= f : Except DecodeError β) = .error e := rfl

/-- Any format tag other than 1 makes `PairPos::from_bytes` fail (tag 2 hits
`unimplemented!()`, anything else hits the `panic!`); no mapping is ever
returned. -/
theorem decodePairPos_not_ok (b : List Nat) (t : Nat) (ht : read16 b 0 = some t)
    (h1 : t ≠ 1) : ∀ m, decodePairPos b ≠ .ok m := by
  intro m hcontra
  unfold decodePairPos at hcontra
  rw [ht] at hcontra
  simp only [liftO, ebind_ok] at hcontra
  cases hc2 : read16 b 2 with
  | none => rw [hc2] at hcontra; simp only [liftO, ebind_error] at hcontra; cases hcontra
  | some covOff =>
    rw [hc2] at hcontra
    simp only [liftO, ebind_ok] at hcontra
    cases hc4 : read16 b 4 with
    | none => rw [hc4] at hcontra; simp only [liftO, ebind_error] at hcontra; cases hcontra
    | some vf1 =>
      rw [hc4] at hcontra
      simp only [liftO, ebind_ok] at hcontra
      cases hc6 : read16 b 6 with
      | none => rw [hc6] at hcontra; simp only [liftO, ebind_error] at hcontra; cases hcontra
      | some vf2 =>
        rw [hc6] at hcontra
        simp only [liftO, ebind_ok] at hcontra
        cases hcov : parseCoverage b covOff with
        | none =>
          rw [hcov] at hcontra; simp only [liftO, ebind_error] at hcontra; cases hcontra
        | some glyphs =>
          rw [hcov] at hcontra
          simp only [liftO, ebind_ok] at hcontra
          match t, h1 with
          | 0, _ => cases hcontra
          | 1, h1 => exact h1 rfl
          | 2, _ => cases hcontra
          | (n + 3), _ => cases hcontra

/-- `SingleSubst::from_bytes` panics on any tag other than 1 or 2; no mapping
is ever returned. -/
theorem decodeSingleSubst_not_ok (b : List Nat) (t : Nat)
    (ht : read16 b 0 = some t) (h1 : t ≠ 1) (h2 : t ≠ 2) :
    ∀ m, decodeSingleSubst b ≠ .ok m := by
  intro m hcontra
  unfold decodeSingleSubst at hcontra
  rw [ht] at hcontra
  match t, h1, h2 with
  | 0, _, _ => cases hcontra
  | 1, h1, _ => exact h1 rfl
  | 2, _, h2 => exact h2 rfl
  | (n + 3), _, _ => cases hcontra

/-- C5.  For both subtable kinds, a leading 16-bit format tag other than 1 or
2 causes a fatal decode failure; no (in particular no silently-empty)
mapping is ever returned. -/
theorem decode_rejects_malformed_tag (b : List Nat) (t : Nat)
    (m1 : SubstMap) (m2 : PairMap)
    (ht : read16 b 0 = some t) (h1 : t ≠ 1) (h2 : t ≠ 2) :
    decodeSingleSubst b ≠ .ok m1 ∧ decodePairPos b ≠ .ok m2 :=
  ⟨decodeSingleSubst_not_ok b t ht h1 h2 m1, decodePairPos_not_ok b t ht h1 m2⟩

/-- Witness: tag `0x0003` with an otherwise plausible body is fatally
rejected by both decoders (in particular it does not yield the empty
mapping). -/
theorem decode_rejects_malformed_tag_witness :
    (read16 [0, 3, 0, 10, 0, 0, 0, 0, 0, 0, 0, 1, 0, 0] 0 = some 3
      ∧ (3 : Nat) ≠ 1 ∧ (3 : Nat) ≠ 2)
    ∧ (decodeSingleSubst [0, 3, 0, 10, 0, 0, 0, 0, 0, 0, 0, 1, 0, 0] ≠ .ok []
      ∧ decodePairPos [0, 3, 0, 10, 0, 0, 0, 0, 0, 0, 0, 1, 0, 0] ≠ .ok []) :=
  ⟨by decide,
   decode_rejects_malformed_tag [0, 3, 0, 10, 0, 0, 0, 0, 0, 0, 0, 1, 0, 0] 3 [] []
     (by decide) (by decide) (by decide)⟩

/-- C6.  Pair-positioning format 2 is recognized but always fails fatally on
decode —`unimplemented!()` when the shared prefix reads succeed, never a
partial or empty mapping — and encoding never produces format 2:
`best_format` is constantly 1 and the `From` conversion always returns the
format-1 variant. -/
theorem pairpos_format2_unimplemented (b : List Nat) (m m' : PairMap)
    (ht : read16 b 0 = some 2) :
    decodePairPos b ≠ .ok m'
    ∧ decodePairPos [0, 2, 0, 10, 0, 0, 0, 0, 0, 0, 0, 1, 0, 0]
        = .error .unimplementedFormat
    ∧ pairPosBestFormat m = 1
    ∧ pairPosInternalFrom m = .ok (pairPosFormat1Of m) :=
  ⟨decodePairPos_not_ok b 2 ht (by decide) m', by decide, rfl, rfl⟩

/-- Witness for the format-2 theorem at a concrete tag-2 input and a
concrete mapping. -/
theorem pairpos_format2_unimplemented_witness :
    read16 [0, 2, 0, 10, 0, 0, 0, 0, 0, 0, 0, 1, 0, 0] 0 = some 2
    ∧ (decodePairPos [0, 2, 0, 10, 0, 0, 0, 0, 0, 0, 0, 1, 0, 0] ≠ .ok []
      ∧ decodePairPos [0, 2, 0, 10, 0, 0, 0, 0, 0, 0, 0, 1, 0, 0]
          = .error .unimplementedFormat
      ∧ pairPosBestFormat [] = 1
      ∧ pairPosInternalFrom [] = .ok (pairPosFormat1Of [])) :=
  ⟨by decide,
   pairpos_format2_unimplemented [0, 2, 0, 10, 0, 0, 0, 0, 0, 0, 0, 1, 0, 0] [] []
     (by decide)⟩

/-- C8.  The two concrete encoding fixtures of §8: `{66→67, 68→69}` selects
format 1 and serializes to the exact 14-byte sequence; `{34→66, 35→66,
36→66}` selects format 2 and serializes to the exact 22-byte sequence. -/
theorem single_subst_concrete_fixtures :
    (best_format [(66, 67), (68, 69)]).1 = 1
    ∧ singleSubstToBytes [(66, 67), (68, 69)] =
        [0x00, 0x01, 0x00, 0x06, 0x00, 0x01, 0x00, 0x01, 0x00, 0x02,
         0x00, 0x42, 0x00, 0x44]
    ∧ (best_format [(34, 66), (35, 66), (36, 66)]).1 = 2
    ∧ singleSubstToBytes [(34, 66), (35, 66), (36, 66)] =
        [0x00, 0x02, 0x00, 0x0c, 0x00, 0x03, 0x00, 0x42, 0x00, 0x42, 0x00, 0x42,
         0x00, 0x01, 0x00, 0x03, 0x00, 0x22, 0x00, 0x23, 0x00, 0x24] := by
  decide

/-- C1 fails on the code: the mapping `{0x7fff → 0x8000}` encodes to a
format-1 subtable with delta 1, but decoding trips the overflow-checked
`i16` addition of `gsub1.rs` line 80 (`32767 + 1` overflows `i16`), so
`decode (encode M)` is a fatal overflow panic in a debug build, not `M`. -/
theorem single_subst_roundtrip_overflow :
    singleSubstInternalFrom [(32767, 32768)] = .format1 ⟨[32767], 1⟩
    ∧ decodeSingleSubst (singleSubstToBytes [(32767, 32768)]) = .error .overflow := by
  decide

/-- C3 fails on the code: decoding a format-1 subtable whose coverage holds
glyph `0x7fff` with delta 1 traps in the overflow-checked `i16` addition
(debug-build panic) instead of wrapping to `0x8000`; in-range additions do
produce `(g + delta) mod 2^16`, as the second conjunct shows at glyph 5. -/
theorem single_subst_decode_delta_overflow :
    decodeSingleSubst
        [0x00, 0x01, 0x00, 0x06, 0x00, 0x01, 0x00, 0x01, 0x00, 0x01, 0x7f, 0xff]
      = .error .overflow
    ∧ decodeSingleSubst
        [0x00, 0x01, 0x00, 0x06, 0x00, 0x01, 0x00, 0x01, 0x00, 0x01, 0x00, 0x05]
      = .ok [(5, 6)] := by
  decide

theorem optFieldBytes_length (flag : Bool) (o : Option Int) :
    (optFieldBytes flag o).length = cond flag 2 0 := by
  cases flag <;> simp [optFieldBytes, u16Bytes]

theorem readOptField_exact (flag : Bool) (o : Option Int) (pre post : List Nat)
    (ho : optFits o) :
    readOptField (pre ++ (optFieldBytes flag o ++ post)) pre.length flag
      = some ((if flag then some (o.getD 0) else none),
              pre.length + (optFieldBytes flag o).length) := by
  cases flag with
  | false => simp [readOptField, optFieldBytes]
  | true =>
    have hfit : fitsI16 (o.getD 0) := by
      cases o with
      | none => exact ⟨by norm_num, by norm_num⟩
      | some x => exact ho x rfl
    simp only [readOptField, optFieldBytes, if_true]
    rw [read16_peel pre _ pre.length (le_refl _)]
    simp only [Nat.sub_self]
    rw [read16_u16Bytes, Nat.mod_eq_of_lt (toU16_lt _)]
    simp [Option.map, toI16_toU16 hfit, u16Bytes]

theorem readVR_exact (f : Nat) (v : ValueRecord) (pre post : List Nat)
    (hv : v.wf) :
    readVR (pre ++ (vrBytes f v ++ post)) pre.length f
      = some (maskRead f v, pre.length + (vrBytes f v).length) := by
  obtain ⟨h0, h1, h2, h3⟩ := hv
  have hbuf : pre ++ (vrBytes f v ++ post)
      = pre ++ (optFieldBytes (f.testBit 0) v.xPlacement ++
          (optFieldBytes (f.testBit 1) v.yPlacement ++
            (optFieldBytes (f.testBit 2) v.xAdvance ++
              (optFieldBytes (f.testBit 3) v.yAdvance ++ post)))) := by
    simp [vrBytes, List.append_assoc]
  have A0 := readOptField_exact (f.testBit 0) v.xPlacement pre
    (optFieldBytes (f.testBit 1) v.yPlacement ++
      (optFieldBytes (f.testBit 2) v.xAdvance ++
        (optFieldBytes (f.testBit 3) v.yAdvance ++ post))) h0
  have A1 := readOptField_exact (f.testBit 1) v.yPlacement
    (pre ++ optFieldBytes (f.testBit 0) v.xPlacement)
    (optFieldBytes (f.testBit 2) v.xAdvance ++
      (optFieldBytes (f.testBit 3) v.yAdvance ++ post)) h1
  rw [List.append_assoc, List.length_append] at A1
  have A2 := readOptField_exact (f.testBit 2) v.xAdvance
    (pre ++ optFieldBytes (f.testBit 0) v.xPlacement ++
      optFieldBytes (f.testBit 1) v.yPlacement)
    (optFieldBytes (f.testBit 3) v.yAdvance ++ post) h2
  rw [List.append_assoc, List.append_assoc, List.length_append,
      List.length_append] at A2
  have A3 := readOptField_exact (f.testBit 3) v.yAdvance
    (pre ++ optFieldBytes (f.testBit 0) v.xPlacement ++
      optFieldBytes (f.testBit 1) v.yPlacement ++
      optFieldBytes (f.testBit 2) v.xAdvance) post h3
  rw [List.append_assoc, List.append_assoc, List.append_assoc,
      List.length_append, List.length_append, List.length_append] at A3
  rw [hbuf]
  unfold readVR
  rw [A0]
  simp only [obind_some]
  rw [A1]
  simp only [obind_some]
  rw [A2]
  simp only [obind_some]
  rw [A3]
  simp only [obind_some]
  unfold maskRead
  have hlen : (vrBytes f v).length
      = (optFieldBytes (f.testBit 0) v.xPlacement).length +
        ((optFieldBytes (f.testBit 1) v.yPlacement).length +
          ((optFieldBytes (f.testBit 2) v.xAdvance).length +
            (optFieldBytes (f.testBit 3) v.yAdvance).length)) := by
    simp [vrBytes]
  rw [hlen]
  congr 2
  omega

theorem parsePairRecords_exact (vf1 vf2 left : Nat) (post : List Nat)
    (ps : List PairValueRecord) :
    ∀ (pre : List Nat) (m : PairMap), (∀ r ∈ ps, r.wf) →
    parsePairRecords (pre ++ ((ps.map (pvrBytes vf1 vf2)).flatten ++ post))
        vf1 vf2 left ps.length pre.length m
      = some (pvrFold vf1 vf2 left m ps,
              pre.length + ((ps.map (pvrBytes vf1 vf2)).flatten).length) := by
  induction ps with
  | nil => intro pre m hwf; simp [parsePairRecords, pvrFold]
  | cons r rs ih =>
    intro pre m hwf
    obtain ⟨hsg, hv1, hv2⟩ := hwf r (by simp)
    have hbuf : pre ++ (((r :: rs).map (pvrBytes vf1 vf2)).flatten ++ post)
        = pre ++ (u16Bytes r.secondGlyph ++
            (vrBytes vf1 r.valueRecord1 ++
              (vrBytes vf2 r.valueRecord2 ++
                ((rs.map (pvrBytes vf1 vf2)).flatten ++ post)))) := by
      simp [pvrBytes, List.append_assoc]
    have hA : read16 (pre ++ (u16Bytes r.secondGlyph ++
        (vrBytes vf1 r.valueRecord1 ++
          (vrBytes vf2 r.valueRecord2 ++
            ((rs.map (pvrBytes vf1 vf2)).flatten ++ post))))) pre.length
        = some r.secondGlyph := by
      rw [read16_peel pre _ pre.length (le_refl _)]
      simp only [Nat.sub_self]
      rw [read16_u16Bytes, Nat.mod_eq_of_lt hsg]
    have hB := readVR_exact vf1 r.valueRecord1
      (pre ++ u16Bytes r.secondGlyph)
      (vrBytes vf2 r.valueRecord2 ++
        ((rs.map (pvrBytes vf1 vf2)).flatten ++ post)) hv1
    rw [List.append_assoc, List.length_append, u16Bytes_length] at hB
    have hC := readVR_exact vf2 r.valueRecord2
      (pre ++ u16Bytes r.secondGlyph ++ vrBytes vf1 r.valueRecord1)
      ((rs.map (pvrBytes vf1 vf2)).flatten ++ post) hv2
    rw [List.append_assoc, List.append_assoc, List.length_append,
        List.length_append, u16Bytes_length] at hC
    have hD := ih (pre ++ u16Bytes r.secondGlyph ++ vrBytes vf1 r.valueRecord1
        ++ vrBytes vf2 r.valueRecord2)
      (mapInsert pairCmp (left, r.secondGlyph)
        ((maskRead vf1 r.valueRecord1).simplify,
         (maskRead vf2 r.valueRecord2).simplify) m)
      (fun r' hr' => hwf r' (by simp [hr']))
    rw [List.append_assoc, List.append_assoc, List.append_assoc,
        List.length_append, List.length_append, List.length_append,
        u16Bytes_length] at hD
    rw [hbuf]
    show ((read16 _ pre.length).bind fun right => _) = _
    rw [hA]
    simp only [obind_some]
    rw [hB]
    simp only [obind_some]
    rw [hC]
    simp only [obind_some]
    rw [show pre.length + 2 + (vrBytes vf1 r.valueRecord1).length +
          (vrBytes vf2 r.valueRecord2).length
        = pre.length + (2 + ((vrBytes vf1 r.valueRecord1).length +
            (vrBytes vf2 r.valueRecord2).length)) by omega] at hD ⊢
    rw [hD]
    have hlen : (((r :: rs).map (pvrBytes vf1 vf2)).flatten).length
        = 2 + ((vrBytes vf1 r.valueRecord1).length +
            ((vrBytes vf2 r.valueRecord2).length +
              ((rs.map (pvrBytes vf1 vf2)).flatten).length)) := by
      simp only [List.map_cons, List.flatten_cons, List.length_append,
        pvrBytes, u16Bytes_length]
      omega
    rw [hlen]
    simp only [pvrFold, List.foldl_cons]
    congr 2
    omega

theorem parsePairSet_exact (vf1 vf2 left : Nat) (ps : List PairValueRecord)
    (pre post : List Nat) (m : PairMap)
    (hcnt : ps.length < 65536) (hwf : ∀ r ∈ ps, r.wf) :
    parsePairSet (pre ++ (pairSetBytes vf1 vf2 ps ++ post)) vf1 vf2 left
        pre.length m
      = some (pvrFold vf1 vf2 left m ps) := by
  have hbuf : pre ++ (pairSetBytes vf1 vf2 ps ++ post)
      = pre ++ (u16Bytes ps.length ++
          ((ps.map (pvrBytes vf1 vf2)).flatten ++ post)) := by
    simp [pairSetBytes, List.append_assoc]
  have hA : read16 (pre ++ (u16Bytes ps.length ++
      ((ps.map (pvrBytes vf1 vf2)).flatten ++ post))) pre.length
      = some ps.length := by
    rw [read16_peel pre _ pre.length (le_refl _)]
    simp only [Nat.sub_self]
    rw [read16_u16Bytes, Nat.mod_eq_of_lt hcnt]
  have hB := parsePairRecords_exact vf1 vf2 left post ps
    (pre ++ u16Bytes ps.length) m hwf
  rw [List.append_assoc, List.length_append, u16Bytes_length] at hB
  rw [hbuf]
  unfold parsePairSet
  rw [hA]
  simp only [obind_some]
  rw [hB]
  rfl

theorem parsePairSets_exact (vf1 vf2 : Nat) (post : List Nat)
    (sets : List (List PairValueRecord)) :
    ∀ (gs : List Nat) (pre : List Nat) (m : PairMap),
    (∀ ps ∈ sets, ps.length < 65536 ∧ ∀ r ∈ ps, r.wf) →
    parsePairSets (pre ++ ((sets.map (pairSetBytes vf1 vf2)).flatten ++ post))
        vf1 vf2
        (gs.zip (offsetsFrom pre.length (sets.map (pairSetBytes vf1 vf2)))) m
      = some ((gs.zip sets).foldl
          (fun m' gp => pvrFold vf1 vf2 gp.1 m' gp.2) m) := by
  induction sets with
  | nil => intro gs pre m hwf; simp [offsetsFrom, parsePairSets]
  | cons ps rest ih =>
    intro gs pre m hwf
    cases gs with
    | nil => simp [parsePairSets]
    | cons g gtail =>
      obtain ⟨hcnt, hwfr⟩ := hwf ps (by simp)
      simp only [List.map_cons, offsetsFrom, List.zip_cons_cons, List.flatten_cons,
        List.append_assoc]
      show (parsePairSet _ vf1 vf2 g pre.length m).bind _ = _
      have hA := parsePairSet_exact vf1 vf2 g ps pre
        ((rest.map (pairSetBytes vf1 vf2)).flatten ++ post) m hcnt hwfr
      rw [hA]
      simp only [obind_some]
      have hB := ih gtail (pre ++ pairSetBytes vf1 vf2 ps)
        (pvrFold vf1 vf2 g m ps) (fun ps' hps' => hwf ps' (by simp [hps']))
      rw [List.append_assoc, List.length_append] at hB
      rw [hB]
      simp

theorem flatten_map_u16Bytes_length (l : List Nat) :
    ((l.map u16Bytes).flatten).length = 2 * l.length := by
  induction l with
  | nil => rfl
  | cons x xs ih =>
    simp only [List.map_cons, List.flatten_cons, List.length_append,
      u16Bytes_length, List.length_cons, ih]
    omega

theorem offsetsFrom_length (s : Nat) (l : List (List Nat)) :
    (offsetsFrom s l).length = l.length := by
  induction l generalizing s with
  | nil => rfl
  | cons hd tl ih => simp [offsetsFrom, ih]

theorem offsetsFrom_le (l : List (List Nat)) :
    ∀ (s : Nat), ∀ o ∈ offsetsFrom s l, s ≤ o ∧ o ≤ s + l.flatten.length := by
  induction l with
  | nil => intro s o ho; cases ho
  | cons hd tl ih =>
    intro s o ho
    rcases List.mem_cons.mp ho with rfl | ho
    · refine ⟨le_refl _, ?_⟩; simp
    · have := ih (s + hd.length) o ho
      simp only [List.flatten_cons, List.length_append]
      omega

theorem read16_skip2 (v : Nat) (post : List Nat) (p : Nat) (h : 2 ≤ p) :
    read16 (u16Bytes v ++ post) p = read16 post (p - 2) := by
  have := read16_peel (u16Bytes v) post p (by simp [u16Bytes]; omega)
  simpa using this

theorem readU16List_skip2 (v : Nat) (post : List Nat) (p : Nat) (h : 2 ≤ p) :
    readU16List (u16Bytes v ++ post) p = readU16List post (p - 2) := by
  have := readU16List_peel (u16Bytes v) post p (by simp [u16Bytes]; omega)
  simpa using this

theorem parseCoverage_skip2 (v : Nat) (post : List Nat) (p : Nat) (h : 2 ≤ p) :
    parseCoverage (u16Bytes v ++ post) p = parseCoverage post (p - 2) := by
  have := parseCoverage_peel (u16Bytes v) post p (by simp [u16Bytes]; omega)
  simpa using this

theorem serializePairPos_length (f : PairPosFormat1) :
    (serializePairPos f).length
      = 10 + 2 * f.pairSets.length + (coverageBytes f.coverage).length +
        ((f.pairSets.map (pairSetBytes f.valueFormat1 f.valueFormat2)).flatten).length := by
  simp only [serializePairPos, List.length_append, u16Bytes_length,
    flatten_map_u16Bytes_length, offsetsFrom_length, List.length_map]
  try omega

theorem ppPre_length (cov : List Nat) (vf1 vf2 : Nat)
    (sets : List (List PairValueRecord)) :
    (ppPre cov vf1 vf2 sets).length
      = 10 + 2 * sets.length + (coverageBytes cov).length := by
  simp only [ppPre, List.length_append, u16Bytes_length,
    flatten_map_u16Bytes_length, ppOffs, offsetsFrom_length, ppSetsB,
    List.length_map]
  omega

theorem serializePairPos_decomp (cov : List Nat) (vf1 vf2 : Nat)
    (sets : List (List PairValueRecord)) :
    serializePairPos ⟨cov, vf1, vf2, sets⟩
      = ppPre cov vf1 vf2 sets ++ ((ppSetsB vf1 vf2 sets).flatten ++ []) := by
  simp [serializePairPos, ppPre, ppOffs, ppSetsB, List.append_assoc]

/-- Assembly of `PairPos::from_bytes` from the outcomes of its individual
reads. -/
theorem decodePairPos_reads (b : List Nat) (covOff v1 v2 L : Nat)
    (offs glyphs : List Nat) (m : PairMap)
    (h0 : read16 b 0 = some 1) (h2 : read16 b 2 = some covOff)
    (h4 : read16 b 4 = some v1) (h6 : read16 b 6 = some v2)
    (hcov : parseCoverage b covOff = some glyphs)
    (h8 : read16 b 8 = some L) (h10 : readU16List b 10 L = some offs)
    (hp : parsePairSets b v1 v2 (glyphs.zip offs) [] = some m) :
    decodePairPos b = .ok m := by
  unfold decodePairPos
  rw [h0]
  simp only [liftO, ebind_ok]
  rw [h2]
  simp only [liftO, ebind_ok]
  rw [h4]
  simp only [liftO, ebind_ok]
  rw [h6]
  simp only [liftO, ebind_ok]
  rw [hcov]
  simp only [liftO, ebind_ok]
  rw [h8]
  simp only [liftO, ebind_ok]
  rw [h10]
  simp only [liftO, ebind_ok]
  rw [hp]

/-- Central decode-of-encoded lemma: byte-level decoding of a serialized
well-formed format-1 pair-positioning subtable succeeds and reconstructs
exactly the zip-and-insert semantics of the decode loops (with no
requirement that coverage and the pair-set array have equal lengths). -/
theorem decodePairPos_serialize (f : PairPosFormat1) (hwf : f.wf) :
    decodePairPos (serializePairPos f) = .ok (pairPosSemantics f) := by
  obtain ⟨cov, vf1, vf2, sets⟩ := f
  obtain ⟨hg, hvf1, hvf2, hsetwf, hlen⟩ := hwf
  simp only at hg hvf1 hvf2 hsetwf ⊢
  rw [serializePairPos_length] at hlen
  simp only at hlen
  have hcovlen : (coverageBytes cov).length = 4 + 2 * cov.length := by
    simp only [coverageBytes, List.length_append, u16Bytes_length,
      flatten_map_u16Bytes_length]
    try omega
  have hdec := serializePairPos_decomp cov vf1 vf2 sets
  have hoffb : ∀ o ∈ ppOffs cov vf1 vf2 sets, o < 65536 := by
    intro o ho
    have := offsetsFrom_le (ppSetsB vf1 vf2 sets)
      (10 + 2 * sets.length + (coverageBytes cov).length) o ho
    unfold ppSetsB at this
    omega
  have hB : serializePairPos ⟨cov, vf1, vf2, sets⟩
      = u16Bytes 1 ++ (u16Bytes (10 + 2 * sets.length) ++ (u16Bytes vf1 ++
          (u16Bytes vf2 ++ (u16Bytes sets.length ++
            (((ppOffs cov vf1 vf2 sets).map u16Bytes).flatten ++
              (coverageBytes cov ++ (ppSetsB vf1 vf2 sets).flatten)))))) := by
    rw [hdec]
    simp [ppPre, List.append_assoc]
  rw [hB]
  have h0 : read16 (u16Bytes 1 ++ (u16Bytes (10 + 2 * sets.length) ++
      (u16Bytes vf1 ++ (u16Bytes vf2 ++ (u16Bytes sets.length ++
        (((ppOffs cov vf1 vf2 sets).map u16Bytes).flatten ++
          (coverageBytes cov ++ (ppSetsB vf1 vf2 sets).flatten))))))) 0
      = some 1 := by
    rw [read16_u16Bytes]
  have h2 : read16 (u16Bytes 1 ++ (u16Bytes (10 + 2 * sets.length) ++
      (u16Bytes vf1 ++ (u16Bytes vf2 ++ (u16Bytes sets.length ++
        (((ppOffs cov vf1 vf2 sets).map u16Bytes).flatten ++
          (coverageBytes cov ++ (ppSetsB vf1 vf2 sets).flatten))))))) 2
      = some (10 + 2 * sets.length) := by
    rw [read16_skip2 _ _ 2 (le_refl _)]
    norm_num
    rw [read16_u16Bytes, Nat.mod_eq_of_lt (by omega)]
  have h4 : read16 (u16Bytes 1 ++ (u16Bytes (10 + 2 * sets.length) ++
      (u16Bytes vf1 ++ (u16Bytes vf2 ++ (u16Bytes sets.length ++
        (((ppOffs cov vf1 vf2 sets).map u16Bytes).flatten ++
          (coverageBytes cov ++ (ppSetsB vf1 vf2 sets).flatten))))))) 4
      = some vf1 := by
    rw [read16_skip2 _ _ 4 (by norm_num)]
    norm_num
    rw [read16_skip2 _ _ 2 (le_refl _)]
    norm_num
    rw [read16_u16Bytes, Nat.mod_eq_of_lt hvf1]
  have h6 : read16 (u16Bytes 1 ++ (u16Bytes (10 + 2 * sets.length) ++
      (u16Bytes vf1 ++ (u16Bytes vf2 ++ (u16Bytes sets.length ++
        (((ppOffs cov vf1 vf2 sets).map u16Bytes).flatten ++
          (coverageBytes cov ++ (ppSetsB vf1 vf2 sets).flatten))))))) 6
      = some vf2 := by
    rw [read16_skip2 _ _ 6 (by norm_num)]
    norm_num
    rw [read16_skip2 _ _ 4 (by norm_num)]
    norm_num
    rw [read16_skip2 _ _ 2 (le_refl _)]
    norm_num
    rw [read16_u16Bytes, Nat.mod_eq_of_lt hvf2]
  have h8 : read16 (u16Bytes 1 ++ (u16Bytes (10 + 2 * sets.length) ++
      (u16Bytes vf1 ++ (u16Bytes vf2 ++ (u16Bytes sets.length ++
        (((ppOffs cov vf1 vf2 sets).map u16Bytes).flatten ++
          (coverageBytes cov ++ (ppSetsB vf1 vf2 sets).flatten))))))) 8
      = some sets.length := by
    rw [read16_skip2 _ _ 8 (by norm_num)]
    norm_num
    rw [read16_skip2 _ _ 6 (by norm_num)]
    norm_num
    rw [read16_skip2 _ _ 4 (by norm_num)]
    norm_num
    rw [read16_skip2 _ _ 2 (le_refl _)]
    norm_num
    rw [read16_u16Bytes, Nat.mod_eq_of_lt (by omega)]
  have h10 : readU16List (u16Bytes 1 ++ (u16Bytes (10 + 2 * sets.length) ++
      (u16Bytes vf1 ++ (u16Bytes vf2 ++ (u16Bytes sets.length ++
        (((ppOffs cov vf1 vf2 sets).map u16Bytes).flatten ++
          (coverageBytes cov ++ (ppSetsB vf1 vf2 sets).flatten))))))) 10
      sets.length = some (ppOffs cov vf1 vf2 sets) := by
    rw [readU16List_skip2 _ _ 10 (by norm_num)]
    norm_num
    rw [readU16List_skip2 _ _ 8 (by norm_num)]
    norm_num
    rw [readU16List_skip2 _ _ 6 (by norm_num)]
    norm_num
    rw [readU16List_skip2 _ _ 4 (by norm_num)]
    norm_num
    rw [readU16List_skip2 _ _ 2 (le_refl _)]
    norm_num
    rw [show sets.length = (ppOffs cov vf1 vf2 sets).length by
      rw [ppOffs, offsetsFrom_length, ppSetsB, List.length_map]]
    exact readU16List_exact (ppOffs cov vf1 vf2 sets)
      (coverageBytes cov ++ (ppSetsB vf1 vf2 sets).flatten) hoffb
  have hcov : parseCoverage (u16Bytes 1 ++ (u16Bytes (10 + 2 * sets.length) ++
      (u16Bytes vf1 ++ (u16Bytes vf2 ++ (u16Bytes sets.length ++
        (((ppOffs cov vf1 vf2 sets).map u16Bytes).flatten ++
          (coverageBytes cov ++ (ppSetsB vf1 vf2 sets).flatten)))))))
      (10 + 2 * sets.length) = some cov := by
    have hflatlen : (((ppOffs cov vf1 vf2 sets).map u16Bytes).flatten).length
        = 2 * sets.length := by
      rw [flatten_map_u16Bytes_length, ppOffs, offsetsFrom_length, ppSetsB,
        List.length_map]
    rw [parseCoverage_skip2 _ _ _ (by omega)]
    rw [show 10 + 2 * sets.length - 2 = 8 + 2 * sets.length by omega]
    rw [parseCoverage_skip2 _ _ _ (by omega)]
    rw [show 8 + 2 * sets.length - 2 = 6 + 2 * sets.length by omega]
    rw [parseCoverage_skip2 _ _ _ (by omega)]
    rw [show 6 + 2 * sets.length - 2 = 4 + 2 * sets.length by omega]
    rw [parseCoverage_skip2 _ _ _ (by omega)]
    rw [show 4 + 2 * sets.length - 2 = 2 + 2 * sets.length by omega]
    rw [parseCoverage_skip2 _ _ _ (by omega)]
    rw [show 2 + 2 * sets.length - 2 = 2 * sets.length by omega]
    rw [parseCoverage_peel (((ppOffs cov vf1 vf2 sets).map u16Bytes).flatten)
      _ _ (by omega)]
    rw [show 2 * sets.length -
        (((ppOffs cov vf1 vf2 sets).map u16Bytes).flatten).length = 0 by omega]
    exact parseCoverage_exact cov ((ppSetsB vf1 vf2 sets).flatten) hg (by omega)
  have hparse : parsePairSets (u16Bytes 1 ++ (u16Bytes (10 + 2 * sets.length) ++
      (u16Bytes vf1 ++ (u16Bytes vf2 ++ (u16Bytes sets.length ++
        (((ppOffs cov vf1 vf2 sets).map u16Bytes).flatten ++
          (coverageBytes cov ++ (ppSetsB vf1 vf2 sets).flatten)))))))
      vf1 vf2 (cov.zip (ppOffs cov vf1 vf2 sets)) []
      = some (pairPosSemantics ⟨cov, vf1, vf2, sets⟩) := by
    have hE := parsePairSets_exact vf1 vf2 [] sets cov
      (ppPre cov vf1 vf2 sets) [] hsetwf
    rw [ppPre_length] at hE
    have hbufeq : ppPre cov vf1 vf2 sets ++
        ((sets.map (pairSetBytes vf1 vf2)).flatten ++ [])
        = u16Bytes 1 ++ (u16Bytes (10 + 2 * sets.length) ++
          (u16Bytes vf1 ++ (u16Bytes vf2 ++ (u16Bytes sets.length ++
            (((ppOffs cov vf1 vf2 sets).map u16Bytes).flatten ++
              (coverageBytes cov ++ (ppSetsB vf1 vf2 sets).flatten)))))) := by
      simp [ppPre, ppSetsB, List.append_assoc]
    rw [hbufeq] at hE
    rw [show offsetsFrom (10 + 2 * sets.length + (coverageBytes cov).length)
        (sets.map (pairSetBytes vf1 vf2)) = ppOffs cov vf1 vf2 sets
      from rfl] at hE
    rw [hE]
    rfl
  exact decodePairPos_reads _ _ _ _ _ _ _ _ h0 h2 h4 h6 hcov h8 h10 hparse

theorem simpField_idem (o : Option Int) : simpField (simpField o) = simpField o := by
  unfold simpField
  split <;> simp_all

theorem ValueRecord.simplify_idem (v : ValueRecord) :
    v.simplify.simplify = v.simplify := by
  unfold ValueRecord.simplify
  simp [simpField_idem]

theorem flags_testBit0 (v : ValueRecord) :
    v.flags.testBit 0 = v.xPlacement.isSome := by
  rcases v with ⟨xp, yp, xa, ya⟩
  unfold ValueRecord.flags
  cases xp <;> cases yp <;> cases xa <;> cases ya <;> simp

theorem flags_testBit1 (v : ValueRecord) :
    v.flags.testBit 1 = v.yPlacement.isSome := by
  rcases v with ⟨xp, yp, xa, ya⟩
  unfold ValueRecord.flags
  cases xp <;> cases yp <;> cases xa <;> cases ya <;> simp <;> decide

theorem flags_testBit2 (v : ValueRecord) :
    v.flags.testBit 2 = v.xAdvance.isSome := by
  rcases v with ⟨xp, yp, xa, ya⟩
  unfold ValueRecord.flags
  cases xp <;> cases yp <;> cases xa <;> cases ya <;> simp <;> decide

theorem flags_testBit3 (v : ValueRecord) :
    v.flags.testBit 3 = v.yAdvance.isSome := by
  rcases v with ⟨xp, yp, xa, ya⟩
  unfold ValueRecord.flags
  cases xp <;> cases yp <;> cases xa <;> cases ya <;> simp <;> decide

theorem foldl_lor_testBit (vs : List ValueRecord) (i : Nat) :
    ∀ acc : Nat, acc.testBit i = true →
      (vs.foldl (fun a v => a ||| v.flags) acc).testBit i = true := by
  induction vs with
  | nil => intro acc h; exact h
  | cons v rest ih =>
    intro acc h
    exact ih _ (by rw [Nat.testBit_or]; simp [h])

theorem highest_format_testBit (i : Nat) (v : ValueRecord)
    (h : v.flags.testBit i = true) :
    ∀ (vs : List ValueRecord), v ∈ vs →
      (highest_format vs).testBit i = true := by
  intro vs
  unfold highest_format
  suffices hgen : ∀ (ws : List ValueRecord), v ∈ ws → ∀ acc : Nat,
      (ws.foldl (fun a r => a ||| r.flags) acc).testBit i = true by
    intro hv; exact hgen vs hv 0
  intro ws
  induction ws with
  | nil => intro hv; cases hv
  | cons w rest ih =>
    intro hv acc
    rcases List.mem_cons.mp hv with rfl | hv'
    · exact foldl_lor_testBit rest i _ (by rw [Nat.testBit_or]; simp [h])
    · exact ih hv' _

theorem flags_lt (v : ValueRecord) : v.flags < 16 := by
  rcases v with ⟨xp, yp, xa, ya⟩
  unfold ValueRecord.flags
  cases xp <;> cases yp <;> cases xa <;> cases ya <;> norm_num

theorem highest_format_lt (vs : List ValueRecord) : highest_format vs < 16 := by
  unfold highest_format
  suffices hgen : ∀ acc : Nat, acc < 16 →
      vs.foldl (fun a r => a ||| r.flags) acc < 16 from hgen 0 (by norm_num)
  induction vs with
  | nil => intro acc h; exact h
  | cons w rest ih =>
    intro acc h
    refine ih _ ?_
    have : acc ||| w.flags < 2 ^ 4 :=
      Nat.or_lt_two_pow (by norm_num [h]) (by norm_num [flags_lt w])
    norm_num at this
    exact this

theorem simpField_mask (bit : Bool) (o : Option Int)
    (ho : simpField o = o) (hb : o.isSome = true → bit = true) :
    simpField (if bit then some (o.getD 0) else none) = o := by
  cases o with
  | none =>
    cases bit with
    | false => rfl
    | true => simp [simpField]
  | some x =>
    have hbt : bit = true := hb rfl
    subst hbt
    simpa using ho

theorem maskRead_simplify (vf : Nat) (v : ValueRecord)
    (hsub : ∀ i, v.flags.testBit i = true → vf.testBit i = true)
    (hv : v.simplify = v) :
    (maskRead vf v).simplify = v := by
  have h0 := hsub 0
  have h1 := hsub 1
  have h2 := hsub 2
  have h3 := hsub 3
  rw [flags_testBit0] at h0
  rw [flags_testBit1] at h1
  rw [flags_testBit2] at h2
  rw [flags_testBit3] at h3
  obtain ⟨e0, e1, e2, e3⟩ : simpField v.xPlacement = v.xPlacement ∧
      simpField v.yPlacement = v.yPlacement ∧
      simpField v.xAdvance = v.xAdvance ∧
      simpField v.yAdvance = v.yAdvance := by
    rcases v with ⟨xp, yp, xa, ya⟩
    simpa [ValueRecord.simplify] using hv
  unfold maskRead ValueRecord.simplify
  rcases v with ⟨xp, yp, xa, ya⟩
  simp only [ValueRecord.mk.injEq]
  exact ⟨simpField_mask _ _ e0 h0, simpField_mask _ _ e1 h1,
    simpField_mask _ _ e2 h2, simpField_mask _ _ e3 h3⟩

theorem natCmp_cases (a b : Nat) :
    (a < b ∧ natCmp a b = .lt) ∨ (a = b ∧ natCmp a b = .eq) ∨
    (b < a ∧ natCmp a b = .gt) := by
  unfold natCmp
  rcases Nat.lt_trichotomy a b with h | h | h
  · exact Or.inl ⟨h, by rw [if_pos h]⟩
  · exact Or.inr (Or.inl ⟨h, by rw [if_neg (by omega), if_neg (by omega)]⟩)
  · exact Or.inr (Or.inr ⟨h, by rw [if_neg (by omega), if_pos h]⟩)

theorem nestedInsert_fst (l r : Nat) (v : ValueRecord × ValueRecord) :
    ∀ (s : SplitPairMap), ∀ k ∈ (nestedInsert l r v s).map (·.1),
      k = l ∨ k ∈ s.map (·.1) := by
  intro s
  induction s with
  | nil => intro k hk; simp only [nestedInsert, List.map_cons] at hk; simpa using hk
  | cons e rest ih =>
    intro k hk
    unfold nestedInsert at hk
    rcases natCmp_cases l e.1 with ⟨h, hc⟩ | ⟨h, hc⟩ | ⟨h, hc⟩ <;> rw [hc] at hk
    · rcases List.mem_cons.mp hk with rfl | hk2
      · exact Or.inl rfl
      · exact Or.inr (by simpa using hk2)
    · rcases List.mem_cons.mp hk with rfl | hk2
      · exact Or.inr (by simp)
      · exact Or.inr (by simp [hk2])
    · rcases List.mem_cons.mp hk with rfl | hk2
      · exact Or.inr (by simp)
      · rcases ih k hk2 with hl | hm
        · exact Or.inl hl
        · exact Or.inr (by simp [hm])

theorem nestedInsert_step (l r : Nat) (v : ValueRecord × ValueRecord) :
    ∀ (s : SplitPairMap), SplitWF s →
    (∀ key ∈ (flattenSplit s).map (·.1), pairLt key (l, r)) →
    flattenSplit (nestedInsert l r v s) = flattenSplit s ++ [((l, r), v)]
    ∧ SplitWF (nestedInsert l r v s) := by
  intro s
  induction s with
  | nil =>
    intro _ _
    refine ⟨rfl, List.pairwise_singleton _ _, ?_⟩
    intro e he
    rcases List.mem_singleton.mp he with rfl
    exact ⟨by simp, List.pairwise_singleton _ _⟩
  | cons e rest ih =>
    intro hwf hgt
    obtain ⟨houter, hinner⟩ := hwf
    obtain ⟨hne, hsort⟩ := hinner e (by simp)
    obtain ⟨rv0, inner', he2⟩ : ∃ rv0 inner', e.2 = rv0 :: inner' := by
      cases hh : e.2 with
      | nil => exact absurd hh hne
      | cons a b => exact ⟨a, b, rfl⟩
    have hkey0 : (e.1, rv0.1) ∈ (flattenSplit (e :: rest)).map (·.1) := by
      simp only [flattenSplit, List.map_cons, List.flatten_cons, List.map_append,
        List.map_map, List.mem_append]
      exact Or.inl (by rw [he2]; simp [Function.comp])
    have hle : e.1 < l ∨ (e.1 = l ∧ rv0.1 < r) := by
      have := hgt _ hkey0
      unfold pairLt at this
      simpa using this
    unfold nestedInsert
    rcases natCmp_cases l e.1 with ⟨h, hc⟩ | ⟨h, hc⟩ | ⟨h, hc⟩ <;> rw [hc]
    · omega
    · subst h
      cases rest with
      | cons e' rest' =>
        obtain ⟨hne', hsort'⟩ := hinner e' (by simp)
        obtain ⟨rv0', inner'', he2'⟩ : ∃ rv0' inner'', e'.2 = rv0' :: inner'' := by
          cases hh : e'.2 with
          | nil => exact absurd hh hne'
          | cons a b => exact ⟨a, b, rfl⟩
        have hkey' : (e'.1, rv0'.1) ∈ (flattenSplit (e :: e' :: rest')).map (·.1) := by
          simp only [flattenSplit, List.map_cons, List.flatten_cons,
            List.map_append, List.map_map, List.mem_append]
          exact Or.inr (Or.inl (by rw [he2']; simp [Function.comp]))
        have hlt' : pairLt (e'.1, rv0'.1) (e.1, r) := hgt _ hkey'
        have hout : e.1 < e'.1 := by
          have := List.pairwise_cons.mp houter
          exact this.1 e'.1 (by simp)
        unfold pairLt at hlt'
        simp only at hlt'
        omega
      | nil =>
        have hrs : ∀ rv ∈ e.2, rv.1 < r := by
          intro rv hrv
          have hkeym : (e.1, rv.1) ∈ (flattenSplit [e]).map (·.1) := by
            simp only [flattenSplit, List.map_cons, List.map_nil,
              List.flatten_cons, List.flatten_nil, List.append_nil,
              List.map_map]
            exact List.mem_map_of_mem _ hrv
          have := hgt _ hkeym
          unfold pairLt at this
          simpa using this
        have hins : mapInsert natCmp r v e.2 = e.2 ++ [(r, v)] :=
          mapInsert_append_nat e.2 r v hrs
        constructor
        · simp only [flattenSplit, List.map_cons, List.map_nil,
            List.flatten_cons, List.flatten_nil, List.append_nil, hins]
          simp
        · constructor
          · simp
          · intro e' he'
            rcases List.mem_singleton.mp he' with rfl
            constructor
            · simp [hins]
            · simp only [hins, List.map_append]
              rw [List.pairwise_append]
              refine ⟨hsort, by simp, ?_⟩
              intro a ha b hb
              simp only [List.map_cons, List.map_nil, List.mem_singleton] at hb
              subst hb
              obtain ⟨rv, hrv, hrva⟩ := List.mem_map.mp ha
              exact hrva ▸ hrs rv hrv
    · have hresgt : ∀ key ∈ (flattenSplit rest).map (·.1), pairLt key (l, r) := by
        intro key hk
        refine hgt key ?_
        simp only [flattenSplit, List.map_cons, List.flatten_cons,
          List.map_append, List.mem_append] at hk ⊢
        exact Or.inr hk
      have hrestwf : SplitWF rest :=
        ⟨(List.pairwise_cons.mp houter).2, fun e' he' => hinner e' (by simp [he'])⟩
      obtain ⟨ihflat, ihwf⟩ := ih hrestwf hresgt
      constructor
      · simp only [flattenSplit, List.map_cons, List.flatten_cons] at ihflat ⊢
        rw [ihflat, List.append_assoc]
      · constructor
        · simp only [List.map_cons]
          rw [List.pairwise_cons]
          refine ⟨?_, ihwf.1⟩
          intro k hk
          rcases nestedInsert_fst l r v rest k hk with rfl | hm
          · exact h
          · exact (List.pairwise_cons.mp houter).1 k hm
        · intro e' he'
          rcases List.mem_cons.mp he' with rfl | he2'
          · exact ⟨hne, hsort⟩
          · exact ihwf.2 e' he2'

theorem split_foldl (M : PairMap) :
    ∀ (acc : SplitPairMap), SplitWF acc →
    ((flattenSplit acc).map (·.1) ++ M.map (·.1)).Pairwise pairLt →
    flattenSplit (M.foldl (fun out e => nestedInsert e.1.1 e.1.2 e.2 out) acc)
      = flattenSplit acc ++ M
    ∧ SplitWF (M.foldl (fun out e => nestedInsert e.1.1 e.1.2 e.2 out) acc) := by
  induction M with
  | nil =>
    intro acc hwf _
    exact ⟨by simp, hwf⟩
  | cons en rest ih =>
    intro acc hwf hsort
    have hgt : ∀ key ∈ (flattenSplit acc).map (·.1), pairLt key (en.1.1, en.1.2) := by
      rw [List.pairwise_append] at hsort
      intro key hk
      exact hsort.2.2 key hk en.1 (by simp)
    obtain ⟨hstep, hstepwf⟩ :=
      nestedInsert_step en.1.1 en.1.2 en.2 acc hwf hgt
    simp only [List.foldl_cons]
    have hnext := ih (nestedInsert en.1.1 en.1.2 en.2 acc) hstepwf (by
      rw [hstep]
      have : (flattenSplit acc ++ [((en.1.1, en.1.2), en.2)]).map (·.1) ++
          (rest.map (·.1))
          = (flattenSplit acc).map (·.1) ++ ((en :: rest).map (·.1)) := by
        simp
      rw [this]
      exact hsort)
    refine ⟨?_, hnext.2⟩
    rw [hnext.1, hstep, List.append_assoc]
    simp

theorem split_exact (M : PairMap) (hs : (M.map (·.1)).Pairwise pairLt) :
    flattenSplit (split_into_two_layer M) = M
    ∧ SplitWF (split_into_two_layer M) := by
  have h := split_foldl M [] (by constructor <;> simp) (by
    simpa [flattenSplit] using hs)
  simpa [split_into_two_layer, flattenSplit] using h

theorem sem_fold_acc (vf1 vf2 : Nat) :
    ∀ (s : SplitPairMap) (acc : PairMap),
    (∀ x ∈ s, ∀ rv ∈ x.2,
        (maskRead vf1 rv.2.1).simplify = rv.2.1 ∧
        (maskRead vf2 rv.2.2).simplify = rv.2.2) →
    ((s.map (·.1)).zip
        (s.map (fun x => x.2.map
          (fun rv => (⟨rv.1, rv.2.1, rv.2.2⟩ : PairValueRecord))))).foldl
      (fun m gp => pvrFold vf1 vf2 gp.1 m gp.2) acc
    = (flattenSplit s).foldl (fun m en => mapInsert pairCmp en.1 en.2 m) acc := by
  intro s
  induction s with
  | nil => intro acc _; rfl
  | cons x rest ih =>
    intro acc hmask
    obtain hmx := hmask x (by simp)
    have hinner : pvrFold vf1 vf2 x.1 acc
        (x.2.map (fun rv => (⟨rv.1, rv.2.1, rv.2.2⟩ : PairValueRecord)))
        = x.2.foldl
            (fun m' rv => mapInsert pairCmp (x.1, rv.1) rv.2 m') acc := by
      unfold pvrFold
      rw [List.foldl_map]
      refine List.foldl_ext _ _ acc ?_
      intro m' rv hrv
      obtain ⟨h1, h2⟩ := hmx rv hrv
      simp only
      rw [h1, h2]
    have hxpart : x.2.foldl
        (fun m' rv => mapInsert pairCmp (x.1, rv.1) rv.2 m') acc
        = (x.2.map (fun rv => ((x.1, rv.1), rv.2))).foldl
            (fun m en => mapInsert pairCmp en.1 en.2 m) acc := by
      rw [List.foldl_map]
    have hflat : flattenSplit (x :: rest)
        = x.2.map (fun rv => ((x.1, rv.1), rv.2)) ++ flattenSplit rest := by
      unfold flattenSplit
      simp
    simp only [List.map_cons, List.zip_cons_cons, List.foldl_cons]
    rw [hinner, hxpart, hflat, List.foldl_append]
    exact ih _ (fun x' hx' => hmask x' (by simp [hx']))

theorem pairPosSemantics_split (vf1 vf2 : Nat) (s : SplitPairMap)
    (hmask : ∀ x ∈ s, ∀ rv ∈ x.2,
        (maskRead vf1 rv.2.1).simplify = rv.2.1 ∧
        (maskRead vf2 rv.2.2).simplify = rv.2.2)
    (hsorted : ((flattenSplit s).map (·.1)).Pairwise pairLt) :
    pairPosSemantics ⟨s.map (·.1), vf1, vf2,
        s.map (fun x => x.2.map
          (fun rv => (⟨rv.1, rv.2.1, rv.2.2⟩ : PairValueRecord)))⟩
      = flattenSplit s := by
  unfold pairPosSemantics
  simp only
  rw [sem_fold_acc vf1 vf2 s [] hmask]
  have := foldl_mapInsert_sorted_pair (flattenSplit s) [] (by simpa using hsorted)
  simpa using this

theorem pairPosFormat1Of_def (M : PairMap) :
    pairPosFormat1Of M
      = ⟨(split_into_two_layer (simplifyPairMap M)).map (·.1),
          highest_format ((((split_into_two_layer (simplifyPairMap M)).map
            (fun x => x.2.map (·.2))).flatten).map (·.1)),
          highest_format ((((split_into_two_layer (simplifyPairMap M)).map
            (fun x => x.2.map (·.2))).flatten).map (·.2)),
          (split_into_two_layer (simplifyPairMap M)).map
            (fun x => x.2.map
              (fun rv => (⟨rv.1, rv.2.1, rv.2.2⟩ : PairValueRecord)))⟩ := rfl

theorem flattenSplit_mem (s : SplitPairMap)
    (x : Nat × List (Nat × (ValueRecord × ValueRecord)))
    (rv : Nat × (ValueRecord × ValueRecord)) (hx : x ∈ s) (hrv : rv ∈ x.2) :
    ((x.1, rv.1), rv.2) ∈ flattenSplit s := by
  unfold flattenSplit
  rw [List.mem_flatten]
  exact ⟨x.2.map (fun rv => ((x.1, rv.1), rv.2)),
    List.mem_map_of_mem _ hx, List.mem_map_of_mem _ hrv⟩

theorem split_vr_mem (s : SplitPairMap)
    (x : Nat × List (Nat × (ValueRecord × ValueRecord)))
    (rv : Nat × (ValueRecord × ValueRecord)) (hx : x ∈ s) (hrv : rv ∈ x.2) :
    rv.2 ∈ ((s.map (fun x => x.2.map (·.2))).flatten) := by
  rw [List.mem_flatten]
  exact ⟨x.2.map (·.2), List.mem_map_of_mem _ hx, List.mem_map_of_mem _ hrv⟩

theorem simplifyPairMap_keys (M : PairMap) :
    (simplifyPairMap M).map (·.1) = M.map (·.1) := by
  simp [simplifyPairMap]

/-- Simplified-record facts for every record grouped by the encoder. -/
theorem split_records_simplified (M : PairMap)
    (x : Nat × List (Nat × (ValueRecord × ValueRecord)))
    (rv : Nat × (ValueRecord × ValueRecord))
    (hflat : flattenSplit (split_into_two_layer (simplifyPairMap M))
      = simplifyPairMap M)
    (hx : x ∈ split_into_two_layer (simplifyPairMap M)) (hrv : rv ∈ x.2) :
    rv.2.1.simplify = rv.2.1 ∧ rv.2.2.simplify = rv.2.2 := by
  have hmem : ((x.1, rv.1), rv.2) ∈ simplifyPairMap M := by
    rw [← hflat]
    exact flattenSplit_mem _ x rv hx hrv
  obtain ⟨w, hw, hweq⟩ := List.mem_map.mp hmem
  have h1 : rv.2.1 = w.2.1.simplify := by
    have := congrArg (·.2.1) hweq
    simpa using this.symm
  have h2 : rv.2.2 = w.2.2.simplify := by
    have := congrArg (·.2.2) hweq
    simpa using this.symm
  rw [h1, h2]
  exact ⟨ValueRecord.simplify_idem _, ValueRecord.simplify_idem _⟩

/-- The encoder's wire variant decodes (structurally) to the simplified
canonical mapping: the shared value formats are broad enough for every
record, simplification is idempotent, and regrouping preserves the flat
entry sequence. -/
theorem pairPosSemantics_from (M : PairMap)
    (hsort : (M.map (·.1)).Pairwise pairLt) :
    pairPosSemantics (pairPosFormat1Of M) = simplifyPairMap M := by
  have hsort' : ((simplifyPairMap M).map (·.1)).Pairwise pairLt := by
    rw [simplifyPairMap_keys]; exact hsort
  obtain ⟨hflat, hwfs⟩ := split_exact (simplifyPairMap M) hsort'
  rw [pairPosFormat1Of_def]
  have hmask : ∀ x ∈ split_into_two_layer (simplifyPairMap M), ∀ rv ∈ x.2,
      (maskRead (highest_format ((((split_into_two_layer (simplifyPairMap M)).map
          (fun x => x.2.map (·.2))).flatten).map (·.1))) rv.2.1).simplify = rv.2.1 ∧
      (maskRead (highest_format ((((split_into_two_layer (simplifyPairMap M)).map
          (fun x => x.2.map (·.2))).flatten).map (·.2))) rv.2.2).simplify = rv.2.2 := by
    intro x hx rv hrv
    obtain ⟨hs1, hs2⟩ := split_records_simplified M x rv hflat hx hrv
    have hvr := split_vr_mem _ x rv hx hrv
    constructor
    · refine maskRead_simplify _ _ ?_ hs1
      intro i hi
      exact highest_format_testBit i rv.2.1 hi _ (List.mem_map_of_mem _ hvr)
    · refine maskRead_simplify _ _ ?_ hs2
      intro i hi
      exact highest_format_testBit i rv.2.2 hi _ (List.mem_map_of_mem _ hvr)
  rw [pairPosSemantics_split _ _ _ hmask (by rw [hflat]; exact hsort')]
  exact hflat

theorem optFits_simpField (o : Option Int) (h : optFits o) :
    optFits (simpField o) := by
  unfold simpField
  split
  · intro x hx; cases hx
  · exact h

theorem ValueRecord.simplify_wf (v : ValueRecord) (h : v.wf) :
    v.simplify.wf := by
  obtain ⟨h0, h1, h2, h3⟩ := h
  exact ⟨optFits_simpField _ h0, optFits_simpField _ h1,
    optFits_simpField _ h2, optFits_simpField _ h3⟩

theorem inner_length_le (s : SplitPairMap)
    (x : Nat × List (Nat × (ValueRecord × ValueRecord))) (hx : x ∈ s) :
    x.2.length ≤ (flattenSplit s).length := by
  unfold flattenSplit
  rw [List.length_flatten]
  have hmem : x.2.length ∈
      ((s.map (fun e => e.2.map (fun rv => ((e.1, rv.1), rv.2)))).map
        List.length) := by
    rw [List.map_map]
    have := List.mem_map_of_mem
      (fun e : Nat × List (Nat × (ValueRecord × ValueRecord)) =>
        (List.length ∘ fun e' : Nat × List (Nat × (ValueRecord × ValueRecord)) =>
          e'.2.map (fun rv => ((e'.1, rv.1), rv.2))) e) hx
    simpa using this
  exact List.single_le_sum (fun a _ => Nat.zero_le a) _ hmem

/-- Well-formedness of the wire variant built by the encoder, given a
well-formed canonical mapping whose serialization fits a 16-bit table. -/
theorem pairPosFormat1Of_wf (M : PairMap)
    (hsort : (M.map (·.1)).Pairwise pairLt)
    (hwf : ∀ e ∈ M, e.1.1 < 65536 ∧ e.1.2 < 65536 ∧ e.2.1.wf ∧ e.2.2.wf)
    (hM : M.length < 65536)
    (hsize : (serializePairPos (pairPosFormat1Of M)).length < 65536) :
    (pairPosFormat1Of M).wf := by
  have hsort' : ((simplifyPairMap M).map (·.1)).Pairwise pairLt := by
    rw [simplifyPairMap_keys]; exact hsort
  obtain ⟨hflat, hwfs⟩ := split_exact (simplifyPairMap M) hsort'
  have hentry : ∀ x ∈ split_into_two_layer (simplifyPairMap M), ∀ rv ∈ x.2,
      x.1 < 65536 ∧ rv.1 < 65536 ∧ rv.2.1.wf ∧ rv.2.2.wf := by
    intro x hx rv hrv
    have hmem : ((x.1, rv.1), rv.2) ∈ simplifyPairMap M := by
      rw [← hflat]
      exact flattenSplit_mem _ x rv hx hrv
    obtain ⟨w, hw, hweq⟩ := List.mem_map.mp hmem
    obtain ⟨hk1, hk2, hv1, hv2⟩ := hwf w hw
    have e1 : w.1.1 = x.1 := by
      have := congrArg (·.1.1) hweq; simpa using this
    have e2 : w.1.2 = rv.1 := by
      have := congrArg (·.1.2) hweq; simpa using this
    have e3 : w.2.1.simplify = rv.2.1 := by
      have := congrArg (·.2.1) hweq; simpa using this
    have e4 : w.2.2.simplify = rv.2.2 := by
      have := congrArg (·.2.2) hweq; simpa using this
    exact ⟨e1 ▸ hk1, e2 ▸ hk2, e3 ▸ ValueRecord.simplify_wf _ hv1,
      e4 ▸ ValueRecord.simplify_wf _ hv2⟩
  rw [pairPosFormat1Of_def]
  unfold PairPosFormat1.wf
  simp only
  refine ⟨?_, ?_, ?_, ?_, ?_⟩
  · intro g hg
    obtain ⟨x, hx, hxg⟩ := List.mem_map.mp hg
    obtain ⟨hne, -⟩ := hwfs.2 x hx
    obtain ⟨rv0, inner', he2⟩ : ∃ rv0 inner', x.2 = rv0 :: inner' := by
      cases hh : x.2 with
      | nil => exact absurd hh hne
      | cons a b => exact ⟨a, b, rfl⟩
    have := (hentry x hx rv0 (by rw [he2]; simp)).1
    omega
  · have := highest_format_lt
      ((((split_into_two_layer (simplifyPairMap M)).map
        (fun x => x.2.map (·.2))).flatten).map (·.1))
    omega
  · have := highest_format_lt
      ((((split_into_two_layer (simplifyPairMap M)).map
        (fun x => x.2.map (·.2))).flatten).map (·.2))
    omega
  · intro ps hps
    obtain ⟨x, hx, hxps⟩ := List.mem_map.mp hps
    constructor
    · have hle := inner_length_le _ x hx
      rw [hflat] at hle
      have hlen : (simplifyPairMap M).length = M.length := by
        simp [simplifyPairMap]
      rw [← hxps]
      simp only [List.length_map]
      omega
    · intro r hr
      rw [← hxps] at hr
      obtain ⟨rv, hrv, hrvr⟩ := List.mem_map.mp hr
      obtain ⟨-, hk2, hv1, hv2⟩ := hentry x hx rv hrv
      rw [← hrvr]
      exact ⟨hk2, hv1, hv2⟩
  · rw [← pairPosFormat1Of_def]
    exact hsize

/-- Assembly of `SingleSubst::from_bytes` (format-2 arm) from the outcomes of
its individual reads. -/
theorem decodeSingleSubst_reads2 (b : List Nat) (covOff count : Nat)
    (subs glyphs : List Nat)
    (h0 : read16 b 0 = some 2) (h2 : read16 b 2 = some covOff)
    (h4 : read16 b 4 = some count) (h6 : readU16List b 6 count = some subs)
    (hcov : parseCoverage b covOff = some glyphs) :
    decodeSingleSubst b = .ok (singleSubstF2Mapping glyphs subs) := by
  unfold decodeSingleSubst
  rw [h0, h2, h4]
  simp only [liftO, ebind_ok]
  rw [h6]
  simp only [liftO, ebind_ok]
  rw [hcov]
  simp only [liftO, ebind_ok]
  rfl

theorem decodeSingleSubst_serializeF2 (glyphs subs : List Nat)
    (hg : ∀ g ∈ glyphs, g < 65536) (hglen : glyphs.length < 65536)
    (hs : ∀ x ∈ subs, x < 65536) (hslen : 6 + 2 * subs.length < 65536) :
    decodeSingleSubst (serializeSingleSubstInternal (.format2 ⟨glyphs, subs⟩))
      = .ok (singleSubstF2Mapping glyphs subs) := by
  have hassoc : serializeSingleSubstInternal (.format2 ⟨glyphs, subs⟩)
      = u16Bytes 2 ++ (u16Bytes (6 + 2 * subs.length) ++ (u16Bytes subs.length ++
          ((subs.map u16Bytes).flatten ++ coverageBytes glyphs))) := by
    simp [serializeSingleSubstInternal, List.append_assoc]
  rw [hassoc]
  have hflatlen : ((subs.map u16Bytes).flatten).length = 2 * subs.length :=
    flatten_map_u16Bytes_length subs
  refine decodeSingleSubst_reads2 _ (6 + 2 * subs.length) subs.length subs glyphs
    ?_ ?_ ?_ ?_ ?_
  · rw [read16_u16Bytes]
  · rw [read16_skip2 _ _ 2 (le_refl _)]
    norm_num
    rw [read16_u16Bytes, Nat.mod_eq_of_lt hslen]
  · rw [read16_skip2 _ _ 4 (by norm_num)]
    norm_num
    rw [read16_skip2 _ _ 2 (le_refl _)]
    norm_num
    rw [read16_u16Bytes, Nat.mod_eq_of_lt (by omega)]
  · rw [readU16List_skip2 _ _ 6 (by norm_num)]
    norm_num
    rw [readU16List_skip2 _ _ 4 (by norm_num)]
    norm_num
    rw [readU16List_skip2 _ _ 2 (le_refl _)]
    norm_num
    exact readU16List_exact subs (coverageBytes glyphs) hs
  · rw [parseCoverage_skip2 _ _ _ (by omega)]
    rw [show 6 + 2 * subs.length - 2 = 4 + 2 * subs.length by omega]
    rw [parseCoverage_skip2 _ _ _ (by omega)]
    rw [show 4 + 2 * subs.length - 2 = 2 + 2 * subs.length by omega]
    rw [parseCoverage_skip2 _ _ _ (by omega)]
    rw [show 2 + 2 * subs.length - 2 = 2 * subs.length by omega]
    rw [parseCoverage_peel ((subs.map u16Bytes).flatten) _ _ (by omega)]
    rw [show 2 * subs.length - ((subs.map u16Bytes).flatten).length = 0 by omega]
    have := parseCoverage_exact glyphs [] hg hglen
    rw [List.append_nil] at this
    exact this

/-- C4 (amended).  Encoding a well-formed, canonically sorted
pair-positioning mapping and decoding the bytes reproduces the mapping with
every value record normalized by `simplify`; in particular every key — and
hence the set of distinct left glyphs and each left glyph's set of right
glyphs — is preserved exactly. -/
theorem pairpos_roundtrip_normalized (M : PairMap)
    (hsort : (M.map (·.1)).Pairwise pairLt)
    (hwf : ∀ e ∈ M, e.1.1 < 65536 ∧ e.1.2 < 65536 ∧ e.2.1.wf ∧ e.2.2.wf)
    (hM : M.length < 65536)
    (hsize : (serializePairPos (pairPosFormat1Of M)).length < 65536) :
    pairPosToBytes M = .ok (serializePairPos (pairPosFormat1Of M))
    ∧ decodePairPos (serializePairPos (pairPosFormat1Of M))
        = .ok (simplifyPairMap M)
    ∧ (simplifyPairMap M).map (·.1) = M.map (·.1) := by
  refine ⟨rfl, ?_, simplifyPairMap_keys M⟩
  rw [decodePairPos_serialize _ (pairPosFormat1Of_wf M hsort hwf hM hsize)]
  rw [pairPosSemantics_from M hsort]

/-- C4 witness: every hypothesis of the amended round trip holds at the §8
kerning fixture, and the round trip reproduces its simplified mapping. -/
theorem pairpos_roundtrip_normalized_witness :
    ((kernFixture.map (·.1)).Pairwise pairLt
      ∧ (∀ e ∈ kernFixture,
          e.1.1 < 65536 ∧ e.1.2 < 65536 ∧ e.2.1.wf ∧ e.2.2.wf)
      ∧ kernFixture.length < 65536
      ∧ (serializePairPos (pairPosFormat1Of kernFixture)).length < 65536)
    ∧ decodePairPos (serializePairPos (pairPosFormat1Of kernFixture))
        = .ok (simplifyPairMap kernFixture) :=
  ⟨⟨by decide, by decide, by decide, by decide⟩,
   (pairpos_roundtrip_normalized kernFixture (by decide) (by decide)
     (by decide) (by decide)).2.1⟩

/-- C4 as stated fails on the code: a record with an explicit zero
`xAdvance` does not survive the round trip unchanged — the encoder
simplifies a clone and the decoder simplifies what it reads, so the decoded
record is the normalized empty record, not the original. -/
theorem pairpos_roundtrip_counterexample :
    pairPosToBytes [((0, 1), ((⟨none, none, some 0, none⟩ : ValueRecord),
        ValueRecord.empty))]
      = .ok [0, 1, 0, 12, 0, 0, 0, 0, 0, 1, 0, 18, 0, 1, 0, 1, 0, 0, 0, 1, 0, 1]
    ∧ decodePairPos
        [0, 1, 0, 12, 0, 0, 0, 0, 0, 1, 0, 18, 0, 1, 0, 1, 0, 0, 0, 1, 0, 1]
      = .ok [((0, 1), (ValueRecord.empty, ValueRecord.empty))]
    ∧ ([((0, 1), ((⟨none, none, some 0, none⟩ : ValueRecord),
        ValueRecord.empty))] : PairMap)
      ≠ [((0, 1), (ValueRecord.empty, ValueRecord.empty))] := by
  decide

/-- C7.  The §8 kerning fixture: encoding the three-pair mapping produces
exactly the 38-byte sequence, and decoding that sequence reproduces the
mapping. -/
theorem pairpos_concrete_fixture :
    pairPosToBytes
        [((0, 289), ((⟨none, none, some (-90), none⟩ : ValueRecord),
          ValueRecord.empty)),
         ((0, 332), ((⟨none, none, some (-150), none⟩ : ValueRecord),
          ValueRecord.empty)),
         ((332, 833), ((⟨none, none, some 100, none⟩ : ValueRecord),
          ValueRecord.empty))]
      = .ok [0x00, 0x01, 0x00, 0x0e, 0x00, 0x04, 0x00, 0x00, 0x00, 0x02,
             0x00, 0x16, 0x00, 0x20, 0x00, 0x01, 0x00, 0x02, 0x00, 0x00,
             0x01, 0x4c, 0x00, 0x02, 0x01, 0x21, 0xff, 0xa6, 0x01, 0x4c,
             0xff, 0x6a, 0x00, 0x01, 0x03, 0x41, 0x00, 0x64]
    ∧ decodePairPos
        [0x00, 0x01, 0x00, 0x0e, 0x00, 0x04, 0x00, 0x00, 0x00, 0x02,
         0x00, 0x16, 0x00, 0x20, 0x00, 0x01, 0x00, 0x02, 0x00, 0x00,
         0x01, 0x4c, 0x00, 0x02, 0x01, 0x21, 0xff, 0xa6, 0x01, 0x4c,
         0xff, 0x6a, 0x00, 0x01, 0x03, 0x41, 0x00, 0x64]
      = .ok
        [((0, 289), ((⟨none, none, some (-90), none⟩ : ValueRecord),
          ValueRecord.empty)),
         ((0, 332), ((⟨none, none, some (-150), none⟩ : ValueRecord),
          ValueRecord.empty)),
         ((332, 833), ((⟨none, none, some 100, none⟩ : ValueRecord),
          ValueRecord.empty))] := by
  decide

/-- C9.  When the coverage list and the parallel array differ in length —
the substitute array of substitution format 2, or the pair-set offset array
of pair-positioning format 1 — decode does not fail: it zips positionally,
pairing entries up to the shorter length and silently ignoring the excess
entries of the longer structure. -/
theorem decode_length_mismatch_truncates (gs ss : List Nat)
    (f : PairPosFormat1)
    (hg : ∀ g ∈ gs, g < 65536) (hglen : gs.length < 65536)
    (hs : ∀ x ∈ ss, x < 65536) (hslen : 6 + 2 * ss.length < 65536)
    (hf : f.wf) :
    decodeSingleSubst (serializeSingleSubstInternal (.format2 ⟨gs, ss⟩))
      = .ok (singleSubstF2Mapping gs ss)
    ∧ singleSubstF2Mapping gs ss
        = (gs.zip ss).foldl (fun m e => mapInsert natCmp e.1 e.2 m) []
    ∧ (gs.zip ss).length = min gs.length ss.length
    ∧ decodePairPos (serializePairPos f) = .ok (pairPosSemantics f)
    ∧ (f.coverage.zip f.pairSets).length
        = min f.coverage.length f.pairSets.length :=
  ⟨decodeSingleSubst_serializeF2 gs ss hg hglen hs hslen, rfl,
   List.length_zip _ _, decodePairPos_serialize f hf, List.length_zip _ _⟩

/-- C9 witness: a format-2 substitution table with three covered glyphs but
two substitutes, and a pair-positioning table with two covered glyphs but
one pair set; both decode by truncation. -/
theorem decode_length_mismatch_truncates_witness :
    ((∀ g ∈ [5, 6, 7], g < 65536) ∧ ([5, 6, 7] : List Nat).length < 65536
      ∧ (∀ x ∈ [8, 9], x < 65536) ∧ (6 + 2 * [8, 9].length < 65536)
      ∧ (⟨[1, 2], 0, 0, [[⟨3, ValueRecord.empty, ValueRecord.empty⟩]]⟩
          : PairPosFormat1).wf)
    ∧ (decodeSingleSubst (serializeSingleSubstInternal
          (.format2 ⟨[5, 6, 7], [8, 9]⟩)) = .ok (singleSubstF2Mapping [5, 6, 7] [8, 9])
      ∧ ([5, 6, 7].zip [8, 9]).length = min [5, 6, 7].length [8, 9].length
      ∧ decodePairPos (serializePairPos
          (⟨[1, 2], 0, 0, [[⟨3, ValueRecord.empty, ValueRecord.empty⟩]]⟩
            : PairPosFormat1))
        = .ok (pairPosSemantics
          (⟨[1, 2], 0, 0, [[⟨3, ValueRecord.empty, ValueRecord.empty⟩]]⟩
            : PairPosFormat1))) :=
  ⟨⟨by decide, by decide, by decide, by decide, by decide⟩, by
    have h := decode_length_mismatch_truncates [5, 6, 7] [8, 9]
      ⟨[1, 2], 0, 0, [[⟨3, ValueRecord.empty, ValueRecord.empty⟩]]⟩
      (by decide) (by decide) (by decide) (by decide) (by decide)
    exact ⟨h.1, h.2.2.1, h.2.2.2.1⟩⟩

theorem simplifyPairMap_idem (m : PairMap) :
    simplifyPairMap (simplifyPairMap m) = simplifyPairMap m := by
  unfold simplifyPairMap
  rw [List.map_map]
  refine List.map_congr_left ?_
  intro e he
  simp [Function.comp, ValueRecord.simplify_idem]

theorem pairPosToBytes_simplify_invariant (m : PairMap) :
    pairPosToBytes (simplifyPairMap m) = pairPosToBytes m := by
  simp only [pairPosToBytes, pairPosInternalFrom]
  rw [simplifyPairMap_idem]

/-- C10.  `PairPos::to_bytes`, embedded state-passing on its `&self`
receiver: the caller's mapping after the call is exactly the mapping before
it (the `From` conversion simplifies a clone, `gpos2.rs` line 149), while
the produced bytes are those of the simplified mapping — the
simplification observable in the output never touches the caller's
(unsimplified) records. -/
theorem pairpos_tobytes_no_mutation (m : PairMap) :
    (pairPosToBytesFull m).2 = m
    ∧ (pairPosToBytesFull m).1 = pairPosToBytes (simplifyPairMap m) :=
  ⟨rfl, (pairPosToBytes_simplify_invariant m).symm⟩

end FontTools

